import Mathlib

/-!
Verification development for the `common-cache` crate
(`src/common-cache/src/lib.rs`): a leveled, randomized
promotion/eviction cache (`CommonCache`) with transient handles
(`Entry` = a (level, slot) pair into a borrowed cache) and detached,
generation-stamped handles (`Index`).

Shallow embedding conventions:
- `IndexMap<K, V>` is modelled as a `List (K × V)` in insertion order;
  `swap_remove_index` swaps the removed slot with the last element and
  pops, exactly as indexmap does.
- The random generator (`R: Rng`) is modelled as a stream `List Nat` of
  raw draws; a uniform sample over `[0, n)` takes the head modulo `n`
  (every outcome of the real sampler is reachable this way) and consumes
  one element of the stream.  `rand::distributions::Uniform<usize>`
  stored per level is modelled by the field `cap` (the exclusive upper
  bound of the range).
- `usize` values are `Nat`; `usize::MAX` is `USIZE_MAX`.  The
  `generation: u64` counter is modelled as a plain `Nat`: it advances by
  at most one per operation, so 64-bit wraparound is unreachable on any
  feasible execution (a debug build would abort there).
- Rust panics (failed `assert!`, `unwrap()` on `None`, indexing out of
  bounds, `gen_range` over an empty range) are modelled by `Option`
  results where a claim depends on them; branches of total functions
  that correspond to panics unreachable under the cache invariants are
  marked in comments.
-/

namespace CommonCacheModel

/-- usize::MAX on a 64-bit platform. -/
def USIZE_MAX : Nat := 2 ^ 64 - 1

/-- Level of the cache: `items: IndexMap<K, V>` in insertion order plus the
precomputed uniform distribution `rand_range` over `[0, cap)` where `cap`
is the nominal capacity used for sampling (`base ^ level`, saturated). -/
structure Level (K V : Type) where
  items : List (K × V)
  cap : Nat
  deriving Repr, DecidableEq

/-- CommonCache state: base, the list of levels (index 0 = top), the
random stream, the configured `max_size`, and the `generation` counter. -/
structure CommonCache (K V : Type) where
  base : Nat
  levels : List (Level K V)
  rng : List Nat
  max_size : Nat
  generation : Nat
  deriving Repr, DecidableEq

variable {K V : Type} [DecidableEq K]

/-- Model of drawing one uniform sample in `[0, n)` from the stream:
head of the stream modulo `n` (defaulting to `0` on an exhausted stream,
which still covers every reachable outcome), consuming one element.
`n = 0` would panic in rand; it is unreachable in the uses below. -/
def drawNat (rng : List Nat) (n : Nat) : Nat × List Nat :=
  ((rng.headD 0) % n, rng.tail)

/-- Model of `IndexMap::get_index_of`: position of the first pair whose
key equals `k`. -/
def getIndexOf (k : K) : List (K × V) → Option Nat
  | [] => none
  | p :: rest => if p.1 = k then some 0 else (getIndexOf k rest).map (· + 1)

/-- Model of `IndexMap::swap_remove_index i`: if slot `i` is occupied,
return the removed pair together with the remaining map, in which the
last element has been swapped into slot `i`; `none` when out of range. -/
def swapRemoveIndex (i : Nat) (items : List (K × V)) :
    Option ((K × V) × List (K × V)) :=
  match items.get? i, items.getLast? with
  | some x, some last => some (x, (items.set i last).dropLast)
  | _, _ => none

/-- Model of `IndexMap::insert_full` (and `insert`, via the last two
components): position of the key, the previous value if any, and the
updated map.  An existing key keeps its slot and has its value replaced;
a new key is appended at the end. -/
def insertFull (k : K) (v : V) (items : List (K × V)) :
    Nat × Option V × List (K × V) :=
  match getIndexOf k items with
  | some i => (i, (items.get? i).map Prod.snd, items.set i (k, v))
  | none => (items.length, none, items ++ [(k, v)])

/-- Items of a list of levels in iteration order (level-major). -/
def levelsItems (ls : List (Level K V)) : List (K × V) :=
  (ls.map Level.items).flatten

/-- Model of `CommonCache::size`: sum of the level occupancies. -/
def CommonCache.size (c : CommonCache K V) : Nat :=
  (c.levels.map (fun x => x.items.length)).sum

/-- Items of the cache in the order produced by `CommonCache::iter` /
`iter_mut`: all levels in order, each level in insertion order. -/
def allItems (c : CommonCache K V) : List (K × V) :=
  levelsItems c.levels

/-- Keys of the cache in iteration order. -/
def allKeys (c : CommonCache K V) : List K :=
  (allItems c).map Prod.fst

/-- Nominal sampling capacity of a freshly created level with index
`level + 1`: Rust computes
`base.checked_pow((level + 1).try_into().unwrap_or(u32::MAX)).unwrap_or(usize::MAX)`. -/
def newLevelCap (base lvl : Nat) : Nat :=
  let e := min (lvl + 1) (2 ^ 32 - 1)
  if base ^ e ≤ USIZE_MAX then base ^ e else USIZE_MAX

/-- Model of `CommonCache::new_with_rng` (and `new`, with the rng made
explicit): `none` models the `assert!` failures on `base < 2` or
`max_size < 2`; a missing `max_size` defaults to `usize::MAX`. -/
def new_with_rng (base : Nat) (maxSize : Option Nat) (rng : List Nat) :
    Option (CommonCache K V) :=
  let ms := maxSize.getD USIZE_MAX
  if 2 ≤ ms ∧ 2 ≤ base then
    some { base := base, levels := [], rng := rng, max_size := ms, generation := 0 }
  else none

/-- Model of `CommonCache::clear`: drop every level and bump the
generation. -/
def CommonCache.clear (c : CommonCache K V) : CommonCache K V :=
  { c with levels := [], generation := c.generation + 1 }

/-- Model of the body of the loop `for _ in max_size..sum` in
`set_max_size`: remove `n` uniformly chosen occupied slots from a level.
An empty level would make `gen_range(0..0)` panic in Rust; that branch
skips instead and is unreachable in `set_max_size` (the removal count
never exceeds the occupancy). -/
def removeRandom (rng : List Nat) : Nat → List (K × V) → List (K × V) × List Nat
  | 0, items => (items, rng)
  | n + 1, items =>
    let d := drawNat rng items.length
    match swapRemoveIndex d.1 items with
    | none => removeRandom d.2 n items
    | some (_, items') => removeRandom d.2 n items'

/-- Model of the level walk of `CommonCache::set_max_size` in the
shrinking branch: walk the levels top to bottom accumulating the running
total `sum`; at the first level where `sum` would pass `max_size`,
delete the overshoot at random and truncate every level below; if `sum`
reaches `max_size` exactly, truncate from the next level on. -/
def shrinkLevels (rng : List Nat) (ms : Nat) :
    Nat → List (Level K V) → List (Level K V) × List Nat
  | _, [] => ([], rng)
  | sum, L :: rest =>
    if sum = ms then ([], rng)
    else
      let sum' := sum + L.items.length
      if ms < sum' then
        let r := removeRandom rng (sum' - ms) L.items
        ([{ L with items := r.1 }], r.2)
      else
        let r := shrinkLevels rng ms sum' rest
        (L :: r.1, r.2)

/-- Model of `CommonCache::set_max_size`: `none` on the `assert!`
failure (`max_size < 2`).  When the new bound is at least the current
one, only the stored `max_size` is updated.  Otherwise the shrinking
walk runs and the generation is bumped; note that the source never
assigns `self.max_size` in this branch. -/
def CommonCache.set_max_size (c : CommonCache K V) (ms : Nat) :
    Option (CommonCache K V) :=
  if ms < 2 then none
  else if c.max_size ≤ ms then some { c with max_size := ms }
  else
    let r := shrinkLevels c.rng ms 0 c.levels
    some { c with levels := r.1, rng := r.2, generation := c.generation + 1 }

/-- Eviction step of `insert_at_level` when `size() == max_size`: remove
a uniformly chosen occupied slot of the bottom level and drop the level
if it became empty.  The `none` branches model panics
(`last_mut().unwrap()` on no levels, `gen_range(0..0)` on an empty
bottom level) that are unreachable when the cache invariants hold; they
leave the state unchanged here. -/
def evictOne (c : CommonCache K V) : CommonCache K V :=
  match c.levels.getLast? with
  | none => c
  | some L =>
    let d := drawNat c.rng L.items.length
    match swapRemoveIndex d.1 L.items with
    | none => { c with rng := d.2 }
    | some (_, items') =>
      let levels' := c.levels.set (c.levels.length - 1) ({ L with items := items' })
      let levels'' := if items'.isEmpty then levels'.dropLast else levels'
      { c with rng := d.2, levels := levels'' }

/-- Step 3 of `insert_at_level`: if there are no levels, push level 0
with `IndexMap::with_capacity(1)` and `rand_range = (0..1)`. -/
def ensureLevel (c : CommonCache K V) : CommonCache K V :=
  if c.levels.isEmpty then { c with levels := [{ items := [], cap := 1 }] } else c

/-- One iteration of the cascade loop of `insert_at_level` at level
index `lvl`: sample `i` from the level's `rand_range`; if slot `i` is
occupied, the item falls: into the level below if `lvl` is not the
bottom, into a freshly created bottom level when
`CREATE_NEW_LEVEL_IF_NEEDED`, and otherwise it is discarded.  The
out-of-range `none` branch cannot occur in `cascade` below (indices stay
below the length, which never shrinks during the loop). -/
def cascadeStep (createNew : Bool) (c : CommonCache K V) (lvl : Nat) :
    CommonCache K V :=
  match c.levels.get? lvl with
  | none => c
  | some L =>
    let d := drawNat c.rng L.cap
    match swapRemoveIndex d.1 L.items with
    | none => { c with rng := d.2 }
    | some (mkv, items') =>
      let c1 := { c with rng := d.2,
                         levels := c.levels.set lvl ({ L with items := items' }) }
      if lvl ≠ c1.levels.length - 1 then
        match c1.levels.get? (lvl + 1) with
        | none => c1
        | some L2 =>
          let L2' := { L2 with items := (insertFull mkv.1 mkv.2 L2.items).2.2 }
          { c1 with levels := c1.levels.set (lvl + 1) L2' }
      else if createNew then
        let newL : Level K V := { items := [mkv], cap := newLevelCap c1.base lvl }
        { c1 with levels := c1.levels ++ [newL] }
      else c1

/-- Cascade loop `for level in (level..self.levels.len()).rev()` of
`insert_at_level`: visit the levels from the bottom (at loop entry) up
to and including `target`. -/
def cascade (createNew : Bool) (target : Nat) (c : CommonCache K V) :
    CommonCache K V :=
  (List.range (c.levels.length - target)).foldl
    (fun acc j => cascadeStep createNew acc (c.levels.length - 1 - j)) c

/-- Final step of `insert_at_level`: `insert_full` the pair into the
target level and package the `Entry` coordinates `(level, idx)`.  The
`none` branch models the `self.levels[level]` panic, unreachable for
the calls the crate makes (proved below for the public operations). -/
def insertAtTarget (k : K) (v : V) (level : Nat) (c : CommonCache K V) :
    CommonCache K V × Nat × Nat :=
  match c.levels.get? level with
  | none => (c, level, 0)
  | some L =>
    let r := insertFull k v L.items
    ({ c with levels := c.levels.set level ({ L with items := r.2.2 }) },
     level, r.1)

/-- Model of `CommonCache::insert_at_level::<CREATE_NEW_LEVEL_IF_NEEDED>`:
bump the generation, evict when full, materialize level 0 if there are
no levels, run the cascade, and finally `insert_full` the pair at
`level` (`insertAtTarget`). -/
def insert_at_level (createNew : Bool) (k : K) (v : V) (level : Nat)
    (c : CommonCache K V) : CommonCache K V × Nat × Nat :=
  let c1 := { c with generation := c.generation + 1 }
  let c2 := if c1.size = c1.max_size then evictOne c1 else c1
  let c3 := ensureLevel c2
  insertAtTarget k v level (cascade createNew level c3)

/-- First `(level, slot)` holding key `k`, scanning levels top to
bottom; backbone of `CommonCache::entry`. -/
def findKey (k : K) : List (Level K V) → Nat → Option (Nat × Nat)
  | [], _ => none
  | L :: rest, i =>
    match getIndexOf k L.items with
    | some j => some (i, j)
    | none => findKey k rest (i + 1)

/-- Model of `CommonCache::entry`: coordinates of the transient `Entry`
handle for `key`, if present.  The method takes `&mut self` only to lend
the cache to the returned `Entry`; its body performs no mutation, so it
is a pure function of the state. -/
def CommonCache.entry (c : CommonCache K V) (k : K) : Option (Nat × Nat) :=
  findKey k c.levels 0

/-- First index within one level whose pair satisfies the predicate;
backbone of `CommonCache::find_first` (`enumerate` before `filter`, so
the reported index is the original position). -/
def findIdxPred (p : K → V → Bool) : List (K × V) → Option Nat
  | [] => none
  | kv :: rest => if p kv.1 kv.2 then some 0 else (findIdxPred p rest).map (· + 1)

/-- Level walk of `find_first`: first `(level, slot)` satisfying the
predicate, level-major. -/
def findFirstAux (p : K → V → Bool) : List (Level K V) → Nat → Option (Nat × Nat)
  | [], _ => none
  | L :: rest, i =>
    match findIdxPred p L.items with
    | some j => some (i, j)
    | none => findFirstAux p rest (i + 1)

/-- Model of `CommonCache::find_first`: the matching coordinates (if
any) together with the resulting state.  The body of the method only
reads, so the resulting state is the input state. -/
def CommonCache.find_first (c : CommonCache K V) (p : K → V → Bool) :
    Option (Nat × Nat) × CommonCache K V :=
  (findFirstAux p c.levels 0, c)

/-- Core of `Index::remove_from` after the generation assertion (also
the whole of `Entry::remove`, whose freshly minted `Index` trivially
passes the assertion): `swap_remove_index` the slot and drop the last
level if it is the one that just became empty.  `none` models the
`unwrap()` panic on a vacant slot. -/
def removeFromRaw (c : CommonCache K V) (lvl idx : Nat) :
    Option ((K × V) × CommonCache K V) :=
  match c.levels.get? lvl with
  | none => none
  | some L =>
    match swapRemoveIndex idx L.items with
    | none => none
    | some (x, items') =>
      let levels' := c.levels.set lvl ({ L with items := items' })
      let levels'' := if items'.isEmpty && decide (lvl = c.levels.length - 1)
        then levels'.dropLast else levels'
      some (x, { c with levels := levels'' })

/-- Model of `CommonCache::insert`: if the key is already at some level
`l`, remove it there and settle at `l - 1` (saturating); otherwise
settle at `levels.len() - 2` (saturating); both with
`CREATE_NEW_LEVEL_IF_NEEDED = true`.  Returns the new state and the
returned `Entry` coordinates.  The inner `none` branch is unreachable:
`entry` only returns occupied coordinates. -/
def CommonCache.insert (c : CommonCache K V) (k : K) (v : V) :
    CommonCache K V × Nat × Nat :=
  match c.entry k with
  | some li =>
    match removeFromRaw c li.1 li.2 with
    | none => (c, 0, 0)
    | some r => insert_at_level true k v (li.1 - 1) r.2
  | none => insert_at_level true k v (c.levels.length - 2) c

namespace Entry

/-- Model of `Entry::peek_key_value` (with `peek_key`, `peek_value` and
`peek_long` as projections of it): read the slot, promoting nothing.
`none` models the `unwrap()` panic on invalid coordinates, impossible
for an `Entry` the crate hands out. -/
def peek_key_value (c : CommonCache K V) (lvl idx : Nat) : Option (K × V) :=
  (c.levels.get? lvl).bind (fun L => L.items.get? idx)

/-- Model of `Entry::peek_key`: first projection of `peek_key_value`. -/
def peek_key (c : CommonCache K V) (lvl idx : Nat) : Option K :=
  (peek_key_value c lvl idx).map Prod.fst

/-- Model of `Entry::peek_value`: second projection of
`peek_key_value`. -/
def peek_value (c : CommonCache K V) (lvl idx : Nat) : Option V :=
  (peek_key_value c lvl idx).map Prod.snd

/-- Model of `Entry::peek_key_value_mut` (and `peek_value_mut`): same
read, but through `&mut`; the state it leaves behind is unchanged. -/
def peek_key_value_mut (c : CommonCache K V) (lvl idx : Nat) :
    Option (K × V) × CommonCache K V :=
  (peek_key_value c lvl idx, c)

/-- Model of `Entry::get_key_value` (and `get_value`, `get_long`):
remove the item at the entry and re-settle it one level higher with
`CREATE_NEW_LEVEL_IF_NEEDED = false`; returns the new state and the new
entry coordinates. -/
def get_key_value (c : CommonCache K V) (lvl idx : Nat) :
    Option (CommonCache K V × Nat × Nat) :=
  (removeFromRaw c lvl idx).map
    (fun r => insert_at_level false r.1.1 r.1.2 (lvl - 1) r.2)

/-- Model of `Entry::remove`. -/
def remove (c : CommonCache K V) (lvl idx : Nat) :
    Option ((K × V) × CommonCache K V) :=
  removeFromRaw c lvl idx

end Entry

/-- Detached handle `Index`: a `(level, slot)` pair plus the generation
snapshot taken when it was created (the `PhantomData` fields carry no
state). -/
structure Index where
  level : Nat
  idx : Nat
  generation : Nat
  deriving Repr, DecidableEq

namespace Index

/-- Model of `Index::assert_generation`: does the snapshot match the
cache's current generation?  A mismatch panics in Rust; every operation
below returns `none` in that case. -/
def generationOk (ix : Index) (c : CommonCache K V) : Bool :=
  ix.generation == c.generation

/-- Model of `Index::entry`: assert the generation, then repackage the
coordinates as a transient `Entry` without touching storage. -/
def entry (ix : Index) (c : CommonCache K V) : Option (Nat × Nat) :=
  if ix.generationOk c then some (ix.level, ix.idx) else none

/-- Model of `Index::peek_key_value` (and `peek_key`, `peek_value`):
assert the generation, then read exactly as the transient peek does. -/
def peek_key_value (ix : Index) (c : CommonCache K V) : Option (K × V) :=
  if ix.generationOk c then Entry.peek_key_value c ix.level ix.idx else none

/-- Model of `Index::peek_key`: first projection of `peek_key_value`. -/
def peek_key (ix : Index) (c : CommonCache K V) : Option K :=
  (ix.peek_key_value c).map Prod.fst

/-- Model of `Index::peek_value`: second projection of
`peek_key_value`. -/
def peek_value (ix : Index) (c : CommonCache K V) : Option V :=
  (ix.peek_key_value c).map Prod.snd

/-- Model of `Index::peek_key_value_mut` (and `peek_value_mut`): assert
the generation, read the slot, and leave the state unchanged. -/
def peek_key_value_mut (ix : Index) (c : CommonCache K V) :
    Option ((K × V) × CommonCache K V) :=
  if ix.generationOk c then
    (Entry.peek_key_value c ix.level ix.idx).map (fun kv => (kv, c))
  else none

/-- Model of `Index::peek_value_mut`: value projection of
`peek_key_value_mut`, with the unchanged state. -/
def peek_value_mut (ix : Index) (c : CommonCache K V) :
    Option (V × CommonCache K V) :=
  (ix.peek_key_value_mut c).map (fun r => (r.1.2, r.2))

/-- Model of `Index::remove_from`: assert the generation, then remove
the slot. -/
def remove_from (ix : Index) (c : CommonCache K V) :
    Option ((K × V) × CommonCache K V) :=
  if ix.generationOk c then removeFromRaw c ix.level ix.idx else none

/-- Model of `Index::get_key_value` (and `get_value`): `remove_from`
(which asserts the generation) followed by a non-growing settle one
level higher. -/
def get_key_value (ix : Index) (c : CommonCache K V) :
    Option (CommonCache K V × Nat × Nat) :=
  (ix.remove_from c).map
    (fun r => insert_at_level false r.1.1 r.1.2 (ix.level - 1) r.2)

end Index

/-- Items of the cache as a multiset: the view under which the cascade
algebra is stated. -/
def itemsM (c : CommonCache K V) : Multiset (K × V) :=
  (allItems c : Multiset (K × V))

/-- Keys of the cache as a multiset. -/
def keysM (c : CommonCache K V) : Multiset K :=
  (itemsM c).map Prod.fst

/-- Bottom-level invariant stated by the `levels` field documentation
("the last will not be empty"), as a decidable check. -/
def lastLevelOk (c : CommonCache K V) : Bool :=
  match c.levels.getLast? with
  | none => true
  | some L => !L.items.isEmpty

/-- Well-formedness of a cache state: the constructor bound on
`max_size`, the size bound, global key uniqueness, and the non-empty
bottom level. -/
def Wf (c : CommonCache K V) : Prop :=
  2 ≤ c.max_size ∧ c.size ≤ c.max_size ∧ (allKeys c).Nodup ∧ lastLevelOk c = true

instance (c : CommonCache K V) : Decidable (Wf c) := by
  unfold Wf; infer_instance

/-! Concrete states used by the counterexamples, bug exhibits and
witnesses.  Every one of them is produced by running the public
operations from a freshly constructed cache, so they are reachable
states of the program. -/

/-- Fresh cache over `Nat` keys and values with `base = 2` and
`max_size = 3`, as produced by `new_with_rng(2, Some(3), rng)` (see
`cacheB2M3_reachable`). -/
def cacheB2M3 : CommonCache Nat Nat :=
  { base := 2, levels := [], rng := [], max_size := 3, generation := 0 }

/-- State after `insert(1, 10)` on `cacheB2M3`. -/
def trace1 : CommonCache Nat Nat := (cacheB2M3.insert 1 10).1

/-- State after a further `insert(2, 20)`. -/
def trace2 : CommonCache Nat Nat := (trace1.insert 2 20).1

/-- State after a further `insert(3, 30)`; it holds 3 items, which is
`max_size`. -/
def trace3 : CommonCache Nat Nat := (trace2.insert 3 30).1

/-- Fresh unbounded cache over `String` keys with `base = 2` and an
empty random stream (each draw yields `0`). -/
def sEmpty : CommonCache String Nat :=
  { base := 2, levels := [], rng := [], max_size := USIZE_MAX, generation := 0 }

/-- State after `insert("a", 1)` on `sEmpty`: one level holding "a". -/
def sA : CommonCache String Nat := (sEmpty.insert "a" 1).1

/-- State after a further `insert("b", 2)`: levels are now
`[["b"], ["a"]]`. -/
def sB : CommonCache String Nat := (sA.insert "b" 2).1

/-- Fresh unbounded cache over `String` keys with `base = 2` and an
arbitrary random stream, as produced by `new_with_rng(2, None, rng)`. -/
def emptyUnbounded (rng : List Nat) : CommonCache String Nat :=
  { base := 2, levels := [], rng := rng, max_size := USIZE_MAX, generation := 0 }

end CommonCacheModel

namespace CommonCacheModel

/-- The concrete state `cacheB2M3` is what the constructor returns. -/
theorem cacheB2M3_reachable :
    (new_with_rng 2 (some 3) [] : Option (CommonCache Nat Nat)) = some cacheB2M3 := by
  decide

/-- The concrete state `sEmpty` is what the unbounded constructor
returns. -/
theorem sEmpty_reachable :
    (new_with_rng 2 none [] : Option (CommonCache String Nat)) = some sEmpty := by
  decide

/-- C1: For every cache and every n >= 2, after calling set_max_size(n)
the cache's configured cap as returned by max_size() equals n — in
particular also when n is smaller than the previous max_size (the
shrinking case), where the call may additionally evict items until
size() <= n.  BUG EXHIBIT: on the reachable state `trace3` (3 items,
`max_size = 3`), `set_max_size(2)` succeeds, evicts down to 2 items,
but `max_size()` still returns 3: the shrinking branch of the source
never assigns `self.max_size`. -/
theorem C1_set_max_size_shrink_keeps_old_cap :
    (trace3.set_max_size 2).map (fun c => c.max_size) = some 3 ∧
    (trace3.set_max_size 2).map (fun c => c.size) = some 2 ∧
    trace3.size = 3 ∧ trace3.max_size = 3 := by
  decide

/-- C4: For every cache constructed with a finite max_size, after each
operation size() is at most the max_size most recently requested.  BUG
EXHIBIT: after `set_max_size(2)` on `trace3` the stored cap silently
stays 3, so one further insert brings size() to 3 > 2, exceeding the
most recently requested bound. -/
theorem C4_insert_after_shrink_exceeds_requested_cap :
    (trace3.set_max_size 2).map (fun c => ((c.insert 4 40).1).size) = some 3 ∧
    (trace3.set_max_size 2).map (fun c => c.size) = some 2 := by
  decide

/-- C3: If the cache has levels, the bottommost level is never empty;
any operation that empties it removes it before returning.  BUG
EXHIBIT: on the reachable state `sB` (levels `[["b"], ["a"]]`, which
satisfies the invariant `Wf`), the public promotion
`cache.entry("b")` followed by `Entry::get_key_value` runs the
non-growing cascade, which discards the bottom level's only item "a"
and returns with levels `[["b"], []]`: the empty bottom level is left
in place, violating the invariant stated by the `levels` field
documentation. -/
theorem C3_promotion_leaves_empty_last_level :
    sB.entry "b" = some (0, 0) ∧ Wf sB ∧
    (Entry.get_key_value sB 0 0).map
      (fun r => (lastLevelOk r.1, r.1.levels.map Level.items)) =
      some (false, [[("b", 2)], []]) := by
  decide

/-- C2 counterexample: the claim lists `remove` (of an occupied entry)
among the operations that strictly increase generation().  On the
reachable state `sB`, removing the occupied entry ("b", at level 0,
slot 0) succeeds and leaves the generation unchanged, refuting the
claim as stated. -/
theorem C2_remove_does_not_increase_generation :
    Entry.peek_key_value sB 0 0 = some ("b", 2) ∧
    (Entry.remove sB 0 0).map
      (fun r => decide (sB.generation < r.2.generation)) = some false ∧
    (Entry.remove sB 0 0).map (fun r => r.2.generation) = some sB.generation := by
  decide

end CommonCacheModel

namespace CommonCacheModel

/-- Sampling from a range of size 1 (level 0's distribution) always
yields 0, whatever the stream holds. -/
lemma drawNat_one (rng : List Nat) : drawNat rng 1 = (0, rng.tail) := by
  simp [drawNat, Nat.mod_one]

/-- Inserting "a" into a fresh unbounded base-2 cache, for an arbitrary
random stream: one level of sampling capacity 1 holding "a", and one
generation bump. -/
lemma insert_a (rng : List Nat) (va : Nat) :
    (emptyUnbounded rng).insert "a" va =
    ({ base := 2, levels := [{ items := [("a", va)], cap := 1 }], rng := rng.tail,
       max_size := USIZE_MAX, generation := 1 }, 0, 0) := by
  simp [CommonCache.insert, CommonCache.entry, findKey, insert_at_level, insertAtTarget,
    ensureLevel, cascade, cascadeStep, CommonCache.size, drawNat_one, swapRemoveIndex,
    insertFull, getIndexOf, emptyUnbounded, evictOne, (show List.range 1 = [0] from rfl),
    show (0 : Nat) ≠ USIZE_MAX by decide]

/-- Then inserting "b", for an arbitrary random stream: level 0's draw
over `[0, 1)` is deterministically 0 and level 0 is full, so "a" always
falls and a new bottom level is created for it; "b" lands at level 0. -/
lemma insert_b (rng : List Nat) (va vb : Nat) :
    (((emptyUnbounded rng).insert "a" va).1).insert "b" vb =
    ({ base := 2,
       levels := [{ items := [("b", vb)], cap := 1 }, { items := [("a", va)], cap := 2 }],
       rng := rng.tail.tail, max_size := USIZE_MAX, generation := 2 }, 0, 0) := by
  rw [insert_a]
  simp [CommonCache.insert, CommonCache.entry, findKey, insert_at_level, insertAtTarget,
    ensureLevel, cascade, cascadeStep, CommonCache.size, drawNat_one, swapRemoveIndex,
    insertFull, getIndexOf, evictOne, (show List.range 1 = [0] from rfl),
    (show newLevelCap 2 0 = 2 from by decide),
    show (1 : Nat) ≠ USIZE_MAX by decide]

/-- C9 counterexample: the claim asserts that after `insert("a")` then
`insert("b")` on a fresh base-2 unbounded cache, "a" remains at level 0
for SOME behavior of the random source.  In fact level 0 has sampling
capacity 1, so the cascade draw during the second insert is 0 for every
stream and always hits the single occupied slot: "a" is at level 1 for
every behavior of the random source, never at level 0. -/
theorem C9_a_never_stays_at_level_0 :
    ¬ ∃ (rng : List Nat) (va vb i : Nat),
        ((((emptyUnbounded rng).insert "a" va).1).insert "b" vb).1.entry "a"
          = some (0, i) := by
  rintro ⟨rng, va, vb, i, h⟩
  rw [insert_b] at h
  simp [CommonCache.entry, findKey, getIndexOf] at h

/-- C9 (amended): with base=2 and unbounded max_size, on an empty cache
and for EVERY behavior of the random source: after insert("a"),
size() = 1 and there is exactly one level, of nominal capacity 1; after
a subsequent insert("b"), size() = 2, both keys are present, with "b"
at level 0 and "a" having (deterministically) cascaded to level 1. -/
theorem C9_two_inserts_amended (rng : List Nat) (va vb : Nat) :
    (((emptyUnbounded rng).insert "a" va).1).size = 1 ∧
    (((emptyUnbounded rng).insert "a" va).1).levels.map Level.cap = [1] ∧
    ((((emptyUnbounded rng).insert "a" va).1).insert "b" vb).1.size = 2 ∧
    ((((emptyUnbounded rng).insert "a" va).1).insert "b" vb).1.entry "b" = some (0, 0) ∧
    ((((emptyUnbounded rng).insert "a" va).1).insert "b" vb).1.entry "a" = some (1, 0) := by
  have hb := insert_b rng va vb
  refine ⟨?_, ?_, ?_, ?_, ?_⟩
  · rw [insert_a]; rfl
  · rw [insert_a]; rfl
  · rw [hb]; rfl
  · rw [hb]; rfl
  · rw [hb]; rfl

end CommonCacheModel

namespace CommonCacheModel

variable {K V : Type}

lemma getIndexOf_none_iff [DecidableEq K] (k : K) (items : List (K × V)) :
    getIndexOf k items = none ↔ k ∉ items.map Prod.fst := by
  induction items with
  | nil => simp [getIndexOf]
  | cons p rest ih =>
    by_cases h : p.1 = k
    · simp [getIndexOf, h]
    · simp [getIndexOf, h, Option.map_eq_none', ih, Ne.symm h]

lemma getIndexOf_some [DecidableEq K] (k : K) (items : List (K × V)) :
    ∀ i, getIndexOf k items = some i → ∃ p, items[i]? = some p ∧ p.1 = k := by
  induction items with
  | nil => intro i h; simp [getIndexOf] at h
  | cons p rest ih =>
    intro i h
    by_cases hp : p.1 = k
    · simp [getIndexOf, hp] at h
      subst h
      exact ⟨p, by simp, hp⟩
    · simp [getIndexOf, hp] at h
      obtain ⟨j, hj, rfl⟩ := h
      obtain ⟨q, hq, hqk⟩ := ih j hj
      exact ⟨q, by simpa using hq, hqk⟩

lemma swapRemove_of_getElem? {i : Nat} {items : List (K × V)} {x : K × V}
    (h : items[i]? = some x) :
    ∃ rest, swapRemoveIndex i items = some (x, rest) := by
  have hne : items ≠ [] := by rintro rfl; simp at h
  obtain ⟨last, hl⟩ : ∃ a, items.getLast? = some a := by
    cases hg : items.getLast? with
    | none => exact absurd (List.getLast?_eq_none_iff.mp hg) hne
    | some a => exact ⟨a, rfl⟩
  refine ⟨(items.set i last).dropLast, ?_⟩
  unfold swapRemoveIndex
  rw [List.get?_eq_getElem?, h, hl]

lemma set_getLast_dropLast_perm :
    ∀ (items : List (K × V)) (i : Nat) (x last : K × V),
      items[i]? = some x → items.getLast? = some last →
      items.Perm (x :: (items.set i last).dropLast) := by
  intro items
  induction items with
  | nil => intro i x last h; simp at h
  | cons a t ih =>
    intro i x last h hl
    cases i with
    | zero =>
      simp at h
      subst h
      cases t with
      | nil =>
        simp at hl
        subst hl
        simp
      | cons b t' =>
        have hl' : (b :: t').getLast? = some last := by
          simpa [List.getLast?_cons_cons] using hl
        have hbt : (b :: t').dropLast ++ [last] = b :: t' :=
          List.dropLast_append_getLast? last hl'
        have hsub : (b :: t').Perm (last :: (b :: t').dropLast) := by
          conv_lhs => rw [← hbt]
          exact List.perm_append_singleton _ _
        have hmain := hsub.cons a
        simpa [List.dropLast_cons₂] using hmain
    | succ j =>
      cases t with
      | nil => simp at h
      | cons b t' =>
        have h' : (b :: t')[j]? = some x := by simpa using h
        have hl' : (b :: t').getLast? = some last := by
          simpa [List.getLast?_cons_cons] using hl
        have hperm := ih j x last h' hl'
        obtain ⟨c, u', hcu⟩ : ∃ c u', (b :: t').set j last = c :: u' := by
          cases j with
          | zero => exact ⟨last, t', rfl⟩
          | succ j' => exact ⟨b, t'.set j' last, rfl⟩
        have h1 := hperm.cons a
        have h2 := List.Perm.swap x a (((b :: t').set j last).dropLast)
        have h3 := h1.trans h2
        rw [List.set_cons_succ, hcu, List.dropLast_cons₂, ← hcu]
        exact h3

lemma swapRemove_perm {i : Nat} {items rest : List (K × V)} {x : K × V}
    (h : swapRemoveIndex i items = some (x, rest)) :
    items.Perm (x :: rest) := by
  unfold swapRemoveIndex at h
  rw [List.get?_eq_getElem?] at h
  cases hg : items[i]? with
  | none => rw [hg] at h; simp at h
  | some y =>
    cases hl : items.getLast? with
    | none => rw [hg, hl] at h; simp at h
    | some last =>
      rw [hg, hl] at h
      simp at h
      obtain ⟨rfl, rfl⟩ := h
      exact set_getLast_dropLast_perm items i y last hg hl

lemma swapRemove_coe {i : Nat} {items rest : List (K × V)} {x : K × V}
    (h : swapRemoveIndex i items = some (x, rest)) :
    (↑rest : Multiset (K × V)) + {x} = ↑items := by
  have hp := swapRemove_perm h
  have := Multiset.coe_eq_coe.mpr hp
  rw [this, ← Multiset.cons_coe, ← Multiset.singleton_add]
  exact add_comm _ _

lemma swapRemove_length {i : Nat} {items rest : List (K × V)} {x : K × V}
    (h : swapRemoveIndex i items = some (x, rest)) :
    rest.length + 1 = items.length := by
  have := (swapRemove_perm h).length_eq
  simpa using this.symm

lemma set_coe {α : Type} (items : List α) (j : Nat) (a old : α) :
    items[j]? = some old →
    (↑(items.set j a) : Multiset α) + {old} = ↑items + {a} := by
  induction items generalizing j with
  | nil => intro h; simp at h
  | cons b t ih =>
    intro h
    cases j with
    | zero =>
      simp at h
      subst h
      simp [← Multiset.cons_coe, ← Multiset.singleton_add]
      abel
    | succ j' =>
      simp at h
      have := ih j' h
      simp [List.set_cons_succ, ← Multiset.cons_coe, ← Multiset.singleton_add] at this ⊢
      rw [add_assoc, this, ← add_assoc]

lemma levelsItems_nil : levelsItems ([] : List (Level K V)) = [] := rfl

lemma levelsItems_cons (L : Level K V) (ls : List (Level K V)) :
    levelsItems (L :: ls) = L.items ++ levelsItems ls := by
  simp [levelsItems]

lemma levelsItems_append (ls₁ ls₂ : List (Level K V)) :
    levelsItems (ls₁ ++ ls₂) = levelsItems ls₁ ++ levelsItems ls₂ := by
  simp [levelsItems]

lemma levelsItems_set_coe {ls : List (Level K V)} {i : Nat} {L : Level K V}
    (L' : Level K V) (h : ls[i]? = some L) :
    (↑(levelsItems (ls.set i L')) : Multiset (K × V)) + ↑L.items =
      ↑(levelsItems ls) + ↑L'.items := by
  induction ls generalizing i with
  | nil => simp at h
  | cons M t ih =>
    cases i with
    | zero =>
      simp at h
      subst h
      simp [levelsItems_cons, ← Multiset.coe_add]
      abel
    | succ i' =>
      simp at h
      have := ih h
      simp [levelsItems_cons, ← Multiset.coe_add] at this ⊢
      rw [add_assoc, this, ← add_assoc]

end CommonCacheModel

namespace CommonCacheModel

variable {K V : Type}

lemma size_eq_card (c : CommonCache K V) : c.size = Multiset.card (itemsM c) := by
  simp only [CommonCache.size, itemsM, allItems, levelsItems, Multiset.coe_card,
    List.length_flatten, List.map_map]
  rfl

lemma keysM_coe (c : CommonCache K V) : keysM c = (↑(allKeys c) : Multiset K) := by
  simp [keysM, itemsM, allKeys]

lemma levels_ne_nil_of_size_pos {c : CommonCache K V} (h : 0 < c.size) :
    c.levels ≠ [] := by
  intro hnil
  rw [CommonCache.size, hnil] at h
  simp at h

lemma levelsItems_dropLast_of_last_empty {ls : List (Level K V)} {L : Level K V}
    (h : ls.getLast? = some L) (he : L.items = []) :
    levelsItems ls.dropLast = levelsItems ls := by
  conv_rhs => rw [← List.dropLast_append_getLast? L h]
  simp [levelsItems_append, levelsItems_cons, levelsItems_nil, he]

lemma level_items_le {ls : List (Level K V)} {j : Nat} {L : Level K V}
    (h : ls[j]? = some L) :
    (↑L.items : Multiset (K × V)) ≤ ↑(levelsItems ls) := by
  induction ls generalizing j with
  | nil => simp at h
  | cons M t ih =>
    cases j with
    | zero =>
      simp at h
      subst h
      simp [levelsItems_cons, ← Multiset.coe_add]
    | succ j' =>
      simp at h
      have := ih h
      simp [levelsItems_cons, ← Multiset.coe_add]
      exact le_add_of_nonneg_of_le (by simp) this

lemma levelsItems_remove_coe {ls : List (Level K V)} {lvl : Nat} {L : Level K V}
    {x : K × V} {rest : List (K × V)} (pop : Bool)
    (hpop : pop = true → lvl = ls.length - 1 ∧ rest = [])
    (hL : ls[lvl]? = some L)
    (hrest : (↑rest : Multiset (K × V)) + {x} = ↑L.items) :
    (↑(levelsItems (if pop then (ls.set lvl ({ L with items := rest })).dropLast
        else ls.set lvl ({ L with items := rest }))) : Multiset (K × V)) + {x} =
      ↑(levelsItems ls) := by
  have hset' : (↑(levelsItems (ls.set lvl ({ L with items := rest }))) : Multiset (K × V))
      + ↑L.items = ↑(levelsItems ls) + ↑rest :=
    levelsItems_set_coe (L := L) ({ L with items := rest }) hL
  have hmain :
      (↑(levelsItems (ls.set lvl ({ L with items := rest }))) : Multiset (K × V)) + {x} =
        ↑(levelsItems ls) := by
    have e1 : (↑(levelsItems (ls.set lvl ({ L with items := rest }))) : Multiset (K × V))
        + {x} + ↑rest
        = ↑(levelsItems (ls.set lvl ({ L with items := rest }))) + ↑L.items := by
      rw [add_assoc,
        add_comm ({x} : Multiset (K × V)) (↑rest : Multiset (K × V)), hrest]
    exact add_right_cancel (e1.trans hset')
  cases pop with
  | false => simpa using hmain
  | true =>
    obtain ⟨hlvl, hrestnil⟩ := hpop rfl
    have hne : ls ≠ [] := by rintro rfl; simp at hL
    have hlen : 0 < ls.length := List.length_pos.mpr hne
    have hlast : (ls.set lvl ({ L with items := rest })).getLast? =
        some ({ L with items := rest }) := by
      rw [List.getLast?_eq_getElem?]
      simp only [List.length_set]
      rw [← hlvl]
      have : lvl < ls.length := by
        subst hlvl; omega
      simp [List.getElem?_set_self', this]
    have hdrop := levelsItems_dropLast_of_last_empty hlast (by simp [hrestnil])
    simpa [hdrop] using hmain

end CommonCacheModel

namespace CommonCacheModel

variable {K V : Type}

lemma insertFull_absent [DecidableEq K] {k : K} (v : V) {items : List (K × V)}
    (h : k ∉ items.map Prod.fst) :
    insertFull k v items = (items.length, none, items ++ [(k, v)]) := by
  unfold insertFull
  rw [(getIndexOf_none_iff k items).mpr h]

lemma insertFull_coe_le [DecidableEq K] (k : K) (v : V) (items : List (K × V)) :
    (↑((insertFull k v items).2.2) : Multiset (K × V)) ≤ ↑items + {(k, v)} := by
  unfold insertFull
  cases hg : getIndexOf k items with
  | none => simp [← Multiset.coe_add]
  | some i =>
    obtain ⟨p, hp, hpk⟩ := getIndexOf_some k items i hg
    simp only
    exact le_of_le_of_eq (self_le_add_right _ _) (set_coe items i (k, v) p hp)

lemma insertFull_slot [DecidableEq K] (k : K) (v : V) (items : List (K × V)) :
    ((insertFull k v items).2.2)[(insertFull k v items).1]? = some (k, v) := by
  unfold insertFull
  cases hg : getIndexOf k items with
  | none => simp
  | some i =>
    obtain ⟨p, hp, hpk⟩ := getIndexOf_some k items i hg
    have hi : i < items.length := by
      by_contra hlt
      rw [List.getElem?_eq_none (by omega)] at hp
      exact Option.noConfusion hp
    simp [List.getElem?_set_self', hi]

lemma removeFromRaw_eq {c : CommonCache K V} {lvl idx : Nat} {L : Level K V}
    {x : K × V} {rest : List (K × V)}
    (hL : c.levels[lvl]? = some L)
    (hs : swapRemoveIndex idx L.items = some (x, rest)) :
    removeFromRaw c lvl idx = some (x, { c with levels :=
      (if rest.isEmpty && decide (lvl = c.levels.length - 1)
       then (c.levels.set lvl ({ L with items := rest })).dropLast
       else c.levels.set lvl ({ L with items := rest })) }) := by
  simp only [removeFromRaw, List.get?_eq_getElem?, hL, hs]

lemma removeFromRaw_spec {c : CommonCache K V} {lvl idx : Nat} {L : Level K V}
    {x : K × V} (hL : c.levels[lvl]? = some L) (hx : L.items[idx]? = some x) :
    ∃ c', removeFromRaw c lvl idx = some (x, c') ∧
      itemsM c' + {x} = itemsM c ∧
      c'.generation = c.generation ∧
      c'.max_size = c.max_size ∧
      c.levels.length - 1 ≤ c'.levels.length ∧
      c'.levels.length ≤ c.levels.length ∧
      c'.size + 1 = c.size := by
  obtain ⟨rest, hs⟩ := swapRemove_of_getElem? hx
  refine ⟨_, removeFromRaw_eq hL hs, ?_, rfl, rfl, ?_, ?_, ?_⟩
  · exact levelsItems_remove_coe _
      (fun hp => by
        rcases (Bool.and_eq_true _ _).mp hp with ⟨h1, h2⟩
        exact ⟨of_decide_eq_true h2, List.isEmpty_iff.mp h1⟩)
      hL (swapRemove_coe hs)
  · by_cases hp : (rest.isEmpty && decide (lvl = c.levels.length - 1)) = true <;>
      simp [hp, List.length_set] <;> omega
  · by_cases hp : (rest.isEmpty && decide (lvl = c.levels.length - 1)) = true <;>
      simp [hp, List.length_set] <;> omega
  · have hco := levelsItems_remove_coe
      (rest.isEmpty && decide (lvl = c.levels.length - 1))
      (fun hp => by
        rcases (Bool.and_eq_true _ _).mp hp with ⟨h1, h2⟩
        exact ⟨of_decide_eq_true h2, List.isEmpty_iff.mp h1⟩)
      hL (swapRemove_coe hs)
    have := congrArg Multiset.card hco
    simp only [Multiset.card_add, Multiset.card_singleton] at this
    rw [size_eq_card, size_eq_card]
    exact this

lemma mem_of_remove_coe {s t : Multiset (K × V)} {x : K × V}
    (h : s + {x} = t) : x ∈ t := by
  rw [← h]
  simp

lemma lastLevelOk_getLast {c : CommonCache K V} {L : Level K V}
    (hlast : lastLevelOk c = true) (hl : c.levels.getLast? = some L) :
    L.items ≠ [] := by
  unfold lastLevelOk at hlast
  rw [hl] at hlast
  simpa [List.isEmpty_iff] using hlast

lemma evictOne_spec {c : CommonCache K V} (hlast : lastLevelOk c = true)
    (hne : c.levels ≠ []) :
    ∃ x, itemsM (evictOne c) + {x} = itemsM c ∧
      (evictOne c).generation = c.generation ∧
      (evictOne c).max_size = c.max_size ∧
      c.levels.length - 1 ≤ (evictOne c).levels.length ∧
      (evictOne c).levels.length ≤ c.levels.length ∧
      (evictOne c).size + 1 = c.size := by
  obtain ⟨L, hl⟩ : ∃ a, c.levels.getLast? = some a := by
    cases hg : c.levels.getLast? with
    | none => exact absurd (List.getLast?_eq_none_iff.mp hg) hne
    | some a => exact ⟨a, rfl⟩
  have hitems : L.items ≠ [] := lastLevelOk_getLast hlast hl
  have hlen : 0 < L.items.length := List.length_pos.mpr hitems
  have hlt : (drawNat c.rng L.items.length).1 < L.items.length := by
    simp only [drawNat]
    exact Nat.mod_lt _ hlen
  obtain ⟨y, hy⟩ : ∃ y, L.items[(drawNat c.rng L.items.length).1]? = some y :=
    ⟨_, List.getElem?_eq_getElem hlt⟩
  obtain ⟨rest, hs⟩ := swapRemove_of_getElem? hy
  have hL : c.levels[c.levels.length - 1]? = some L := by
    rw [← List.getLast?_eq_getElem?]
    exact hl
  have hco := levelsItems_remove_coe rest.isEmpty
    (fun hp => ⟨rfl, List.isEmpty_iff.mp hp⟩)
    hL (swapRemove_coe hs)
  have heq : evictOne c = { c with
      rng := (drawNat c.rng L.items.length).2,
      levels := (if rest.isEmpty
        then (c.levels.set (c.levels.length - 1) ({ L with items := rest })).dropLast
        else c.levels.set (c.levels.length - 1) ({ L with items := rest })) } := by
    simp only [evictOne, hl, hs]
  refine ⟨y, ?_, ?_, ?_, ?_, ?_, ?_⟩
  · rw [heq]
    exact hco
  · rw [heq]
  · rw [heq]
  · rw [heq]
    by_cases hp : rest.isEmpty <;> simp [hp, List.length_set] <;> omega
  · rw [heq]
    by_cases hp : rest.isEmpty <;> simp [hp, List.length_set] <;> omega
  · have := congrArg Multiset.card hco
    simp only [Multiset.card_add, Multiset.card_singleton] at this
    rw [size_eq_card, size_eq_card, heq]
    exact this

lemma ensureLevel_spec (c : CommonCache K V) :
    itemsM (ensureLevel c) = itemsM c ∧
    (ensureLevel c).generation = c.generation ∧
    (ensureLevel c).max_size = c.max_size ∧
    (ensureLevel c).levels.length = max 1 c.levels.length := by
  unfold ensureLevel
  by_cases h : c.levels.isEmpty
  · have := List.isEmpty_iff.mp h
    simp [h, this, itemsM, allItems, levelsItems]
  · have : c.levels ≠ [] := by simpa [List.isEmpty_iff] using h
    have hpos : 0 < c.levels.length := List.length_pos.mpr this
    simp [h]
    omega

end CommonCacheModel

namespace CommonCacheModel

variable {K V : Type}

lemma cascadeStep_cases [DecidableEq K] (b : Bool) (c : CommonCache K V) (lvl : Nat) :
    (∃ rng', cascadeStep b c lvl = { c with rng := rng' }) ∨
    (∃ (L : Level K V) (mkv : K × V) (items' : List (K × V)) (rng' : List Nat),
      c.levels[lvl]? = some L ∧
      (↑items' : Multiset (K × V)) + {mkv} = ↑L.items ∧
      ((∃ L2, c.levels[lvl + 1]? = some L2 ∧
          cascadeStep b c lvl = { c with rng := rng', levels :=
            ((c.levels.set lvl ({ L with items := items' })).set (lvl + 1)
              ({ L2 with items := (insertFull mkv.1 mkv.2 L2.items).2.2 })) }) ∨
       (b = true ∧ cascadeStep b c lvl = { c with rng := rng', levels :=
            ((c.levels.set lvl ({ L with items := items' })) ++
              [{ items := [mkv], cap := newLevelCap c.base lvl }]) }) ∨
       (b = false ∧ cascadeStep b c lvl = { c with rng := rng', levels :=
            (c.levels.set lvl ({ L with items := items' })) }))) := by
  cases hL : c.levels[lvl]? with
  | none =>
    left
    exact ⟨c.rng, by simp only [cascadeStep, List.get?_eq_getElem?, hL]⟩
  | some L =>
    cases hs : swapRemoveIndex (drawNat c.rng L.cap).1 L.items with
    | none =>
      left
      exact ⟨(drawNat c.rng L.cap).2, by simp only [cascadeStep, List.get?_eq_getElem?, hL, hs]⟩
    | some pr =>
      obtain ⟨mkv, items'⟩ := pr
      right
      refine ⟨L, mkv, items', (drawNat c.rng L.cap).2, rfl, swapRemove_coe hs, ?_⟩
      have hlvl_lt : lvl < c.levels.length := by
        by_contra hge
        rw [List.getElem?_eq_none (by omega)] at hL
        exact Option.noConfusion hL
      by_cases hne : lvl = c.levels.length - 1
      · cases b with
        | true =>
          right; left
          refine ⟨rfl, ?_⟩
          simp only [cascadeStep, List.get?_eq_getElem?, hL, hs, List.length_set]
          rw [if_neg (by simpa using hne)]
          simp
        | false =>
          right; right
          refine ⟨rfl, ?_⟩
          simp only [cascadeStep, List.get?_eq_getElem?, hL, hs, List.length_set]
          rw [if_neg (by simpa using hne)]
          simp
      · left
        have hlt2 : lvl + 1 < c.levels.length := by omega
        obtain ⟨L2, hL2⟩ : ∃ L2, c.levels[lvl + 1]? = some L2 :=
          ⟨_, List.getElem?_eq_getElem hlt2⟩
        refine ⟨L2, hL2, ?_⟩
        have hL2' : (c.levels.set lvl ({ L with items := items' }))[lvl + 1]? = some L2 := by
          rw [List.getElem?_set_ne (by omega)]
          exact hL2
        simp only [cascadeStep, List.get?_eq_getElem?, hL, hs, List.length_set]
        rw [if_pos (by simpa using hne), hL2']

lemma keysOf_rm {L : Level K V} {mkv : K × V} {items' : List (K × V)}
    (hrm : (↑items' : Multiset (K × V)) + {mkv} = ↑L.items) :
    (↑items' : Multiset (K × V)).map Prod.fst + {mkv.1} =
      (↑L.items : Multiset (K × V)).map Prod.fst := by
  have := congrArg (Multiset.map Prod.fst) hrm
  simpa using this

lemma notin_level_of_nodup [DecidableEq K] {c : CommonCache K V} {lvl : Nat}
    {L : Level K V} {mkv : K × V} {items' : List (K × V)}
    (hnd : (keysM c).Nodup) (hL : c.levels[lvl]? = some L)
    (hrm : (↑items' : Multiset (K × V)) + {mkv} = ↑L.items)
    {j : Nat} {L2 : Level K V} (hj : j ≠ lvl) (hL2 : c.levels[j]? = some L2) :
    mkv.1 ∉ L2.items.map Prod.fst := by
  intro hmem
  have hset : (↑(levelsItems (c.levels.set lvl ({ L with items := items' }))) :
      Multiset (K × V)) + ↑L.items = ↑(levelsItems c.levels) + ↑items' :=
    levelsItems_set_coe _ hL
  have hkeys : (↑(levelsItems (c.levels.set lvl ({ L with items := items' }))) :
      Multiset (K × V)).map Prod.fst + (↑L.items : Multiset (K × V)).map Prod.fst =
      keysM c + (↑items' : Multiset (K × V)).map Prod.fst := by
    have := congrArg (Multiset.map Prod.fst) hset
    simpa [keysM, itemsM, allItems] using this
  have hkey2 : (↑(levelsItems (c.levels.set lvl ({ L with items := items' }))) :
      Multiset (K × V)).map Prod.fst + {mkv.1} = keysM c := by
    have h1 := keysOf_rm hrm
    have e1 : (↑(levelsItems (c.levels.set lvl ({ L with items := items' }))) :
        Multiset (K × V)).map Prod.fst + {mkv.1} +
        (↑items' : Multiset (K × V)).map Prod.fst =
        keysM c + (↑items' : Multiset (K × V)).map Prod.fst := by
      rw [add_assoc, add_comm ({mkv.1} : Multiset K), ← add_assoc, ← hkeys, add_assoc, h1]
    exact add_right_cancel e1
  have hL2set : (c.levels.set lvl ({ L with items := items' }))[j]? = some L2 := by
    rw [List.getElem?_set_ne (by omega)]
    exact hL2
  have hle : (↑L2.items : Multiset (K × V)) ≤
      ↑(levelsItems (c.levels.set lvl ({ L with items := items' }))) :=
    level_items_le hL2set
  have hkle := Multiset.map_le_map (f := Prod.fst) hle
  have hcnt1 : 1 ≤ Multiset.count mkv.1 ((↑L2.items : Multiset (K × V)).map Prod.fst) := by
    rw [Multiset.one_le_count_iff_mem]
    simpa using hmem
  have hcnt2 : 2 ≤ Multiset.count mkv.1 (keysM c) := by
    rw [← hkey2, Multiset.count_add, Multiset.count_singleton_self]
    have h3 := Multiset.le_iff_count.mp hkle mkv.1
    omega
  have := Multiset.nodup_iff_count_le_one.mp hnd mkv.1
  omega

end CommonCacheModel

namespace CommonCacheModel

variable {K V : Type}

lemma cascadeStep_spec [DecidableEq K] (b : Bool) (c : CommonCache K V) (lvl : Nat) :
    (cascadeStep b c lvl).generation = c.generation ∧
    (cascadeStep b c lvl).max_size = c.max_size ∧
    c.levels.length ≤ (cascadeStep b c lvl).levels.length ∧
    (b = false → (cascadeStep b c lvl).levels.length = c.levels.length) ∧
    itemsM (cascadeStep b c lvl) ≤ itemsM c ∧
    ((keysM c).Nodup → b = true → itemsM (cascadeStep b c lvl) = itemsM c) := by
  classical
  rcases cascadeStep_cases b c lvl with ⟨rng', heq⟩ | ⟨L, mkv, items', rng', hL, hrm, hdisj⟩
  · rw [heq]
    simp [itemsM, allItems]
  · rcases hdisj with ⟨L2, hL2, heq⟩ | ⟨hb, heq⟩ | ⟨hb, heq⟩
    · -- the fallen item moves into the level below
      have h1 : (↑(levelsItems (c.levels.set lvl ({ L with items := items' }))) :
          Multiset (K × V)) + ↑L.items = ↑(levelsItems c.levels) + ↑items' :=
        levelsItems_set_coe _ hL
      have hL2' : (c.levels.set lvl ({ L with items := items' }))[lvl + 1]? = some L2 := by
        rw [List.getElem?_set_ne (by omega)]
        exact hL2
      have h2 : (↑(levelsItems ((c.levels.set lvl ({ L with items := items' })).set (lvl + 1)
          ({ L2 with items := (insertFull mkv.1 mkv.2 L2.items).2.2 }))) :
          Multiset (K × V)) + ↑L2.items =
          ↑(levelsItems (c.levels.set lvl ({ L with items := items' }))) +
            ↑(insertFull mkv.1 mkv.2 L2.items).2.2 :=
        levelsItems_set_coe _ hL2'
      have hle3 : (↑(insertFull mkv.1 mkv.2 L2.items).2.2 : Multiset (K × V)) ≤
          ↑L2.items + {mkv} := insertFull_coe_le mkv.1 mkv.2 L2.items
      refine ⟨by rw [heq], by rw [heq], ?_, ?_, ?_, ?_⟩
      · rw [heq]
        simp [List.length_set]
      · intro _
        rw [heq]
        simp [List.length_set]
      · rw [heq, Multiset.le_iff_count]
        intro a
        have e1 := congrArg (Multiset.count a) h1
        have e2 := congrArg (Multiset.count a) h2
        have e3 := Multiset.le_iff_count.mp hle3 a
        have e4 := congrArg (Multiset.count a) hrm
        by_cases ha : a = mkv
        · simp only [itemsM, allItems, Multiset.count_add, ha,
            Multiset.count_singleton_self] at e1 e2 e3 e4 ⊢
          omega
        · simp only [itemsM, allItems, Multiset.count_add, Multiset.count_singleton,
            if_neg ha] at e1 e2 e3 e4 ⊢
          omega
      · intro hnd _
        have habs : mkv.1 ∉ L2.items.map Prod.fst :=
          notin_level_of_nodup hnd hL hrm (by omega) hL2
        have heq3 : (↑(insertFull mkv.1 mkv.2 L2.items).2.2 : Multiset (K × V)) =
            ↑L2.items + {mkv} := by
          rw [insertFull_absent mkv.2 habs]
          simp [← Multiset.coe_add]
        rw [heq]
        apply Multiset.ext.mpr
        intro a
        have e1 := congrArg (Multiset.count a) h1
        have e2 := congrArg (Multiset.count a) h2
        have e3 := congrArg (Multiset.count a) heq3
        have e4 := congrArg (Multiset.count a) hrm
        by_cases ha : a = mkv
        · simp only [itemsM, allItems, Multiset.count_add, ha,
            Multiset.count_singleton_self] at e1 e2 e3 e4 ⊢
          omega
        · simp only [itemsM, allItems, Multiset.count_add, Multiset.count_singleton,
            if_neg ha] at e1 e2 e3 e4 ⊢
          omega
    · -- a new bottom level is created for the fallen item
      have h1 : (↑(levelsItems (c.levels.set lvl ({ L with items := items' }))) :
          Multiset (K × V)) + ↑L.items = ↑(levelsItems c.levels) + ↑items' :=
        levelsItems_set_coe _ hL
      have h2 : (↑(levelsItems ((c.levels.set lvl ({ L with items := items' })) ++
          [{ items := [mkv], cap := newLevelCap c.base lvl }])) : Multiset (K × V)) =
          ↑(levelsItems (c.levels.set lvl ({ L with items := items' }))) + {mkv} := by
        rw [levelsItems_append]
        simp [levelsItems_cons, levelsItems_nil, ← Multiset.coe_add]
      refine ⟨by rw [heq], by rw [heq], ?_, ?_, ?_, ?_⟩
      · rw [heq]
        simp [List.length_set]
      · intro hb'
        rw [hb'] at hb
        exact absurd hb (by simp)
      · rw [heq, Multiset.le_iff_count]
        intro a
        have e1 := congrArg (Multiset.count a) h1
        have e2 := congrArg (Multiset.count a) h2
        have e4 := congrArg (Multiset.count a) hrm
        by_cases ha : a = mkv
        · simp only [itemsM, allItems, Multiset.count_add, ha,
            Multiset.count_singleton_self] at e1 e2 e4 ⊢
          omega
        · simp only [itemsM, allItems, Multiset.count_add, Multiset.count_singleton,
            if_neg ha] at e1 e2 e4 ⊢
          omega
      · intro _ _
        rw [heq]
        apply Multiset.ext.mpr
        intro a
        have e1 := congrArg (Multiset.count a) h1
        have e2 := congrArg (Multiset.count a) h2
        have e4 := congrArg (Multiset.count a) hrm
        by_cases ha : a = mkv
        · simp only [itemsM, allItems, Multiset.count_add, ha,
            Multiset.count_singleton_self] at e1 e2 e4 ⊢
          omega
        · simp only [itemsM, allItems, Multiset.count_add, Multiset.count_singleton,
            if_neg ha] at e1 e2 e4 ⊢
          omega
    · -- the fallen item is discarded (no growth allowed)
      have h1 : (↑(levelsItems (c.levels.set lvl ({ L with items := items' }))) :
          Multiset (K × V)) + ↑L.items = ↑(levelsItems c.levels) + ↑items' :=
        levelsItems_set_coe _ hL
      refine ⟨by rw [heq], by rw [heq], ?_, ?_, ?_, ?_⟩
      · rw [heq]
        simp [List.length_set]
      · intro _
        rw [heq]
        simp [List.length_set]
      · rw [heq, Multiset.le_iff_count]
        intro a
        have e1 := congrArg (Multiset.count a) h1
        have e4 := congrArg (Multiset.count a) hrm
        by_cases ha : a = mkv
        · simp only [itemsM, allItems, Multiset.count_add, ha,
            Multiset.count_singleton_self] at e1 e4 ⊢
          omega
        · simp only [itemsM, allItems, Multiset.count_add, Multiset.count_singleton,
            if_neg ha] at e1 e4 ⊢
          omega
      · intro _ hb'
        rw [hb'] at hb
        exact absurd hb (by simp)

end CommonCacheModel

namespace CommonCacheModel

variable {K V : Type}

lemma foldl_cascadeStep_spec [DecidableEq K] (b : Bool) (f : Nat → Nat) (js : List Nat) :
    ∀ c : CommonCache K V,
      ((js.foldl (fun acc j => cascadeStep b acc (f j)) c).generation = c.generation) ∧
      ((js.foldl (fun acc j => cascadeStep b acc (f j)) c).max_size = c.max_size) ∧
      (c.levels.length ≤ (js.foldl (fun acc j => cascadeStep b acc (f j)) c).levels.length) ∧
      (b = false →
        (js.foldl (fun acc j => cascadeStep b acc (f j)) c).levels.length = c.levels.length) ∧
      itemsM (js.foldl (fun acc j => cascadeStep b acc (f j)) c) ≤ itemsM c ∧
      ((keysM c).Nodup → b = true →
        itemsM (js.foldl (fun acc j => cascadeStep b acc (f j)) c) = itemsM c) := by
  induction js with
  | nil => intro c; simp
  | cons j js ih =>
    intro c
    obtain ⟨g1, m1, l1, lf1, le1, eq1⟩ := cascadeStep_spec b c (f j)
    obtain ⟨g2, m2, l2, lf2, le2, eq2⟩ := ih (cascadeStep b c (f j))
    rw [List.foldl_cons]
    refine ⟨g2.trans g1, m2.trans m1, le_trans l1 l2, ?_, le_trans le2 le1, ?_⟩
    · intro hb
      rw [lf2 hb, lf1 hb]
    · intro hnd hb
      have hk : keysM (cascadeStep b c (f j)) ≤ keysM c := Multiset.map_le_map le1
      have hnd' : (keysM (cascadeStep b c (f j))).Nodup := Multiset.nodup_of_le hk hnd
      rw [eq2 hnd' hb, eq1 hnd hb]

lemma cascade_spec [DecidableEq K] (b : Bool) (target : Nat) (c : CommonCache K V) :
    ((cascade b target c).generation = c.generation) ∧
    ((cascade b target c).max_size = c.max_size) ∧
    (c.levels.length ≤ (cascade b target c).levels.length) ∧
    (b = false → (cascade b target c).levels.length = c.levels.length) ∧
    itemsM (cascade b target c) ≤ itemsM c ∧
    ((keysM c).Nodup → b = true → itemsM (cascade b target c) = itemsM c) :=
  foldl_cascadeStep_spec b (fun j => c.levels.length - 1 - j)
    (List.range (c.levels.length - target)) c

lemma keysM_le_of_itemsM_le {c c' : CommonCache K V} (h : itemsM c' ≤ itemsM c) :
    keysM c' ≤ keysM c := Multiset.map_le_map h

lemma notin_keysM_of_le {c c' : CommonCache K V} {k : K} (h : itemsM c' ≤ itemsM c)
    (hk : k ∉ keysM c) : k ∉ keysM c' :=
  fun hmem => hk (Multiset.mem_of_le (keysM_le_of_itemsM_le h) hmem)

lemma notin_level_keys_of_notin_keysM {c : CommonCache K V} {k : K} {lvl : Nat}
    {L : Level K V} (hL : c.levels[lvl]? = some L) (hk : k ∉ keysM c) :
    k ∉ L.items.map Prod.fst := by
  intro hmem
  apply hk
  have hle : (↑L.items : Multiset (K × V)) ≤ ↑(levelsItems c.levels) := level_items_le hL
  have := Multiset.map_le_map (f := Prod.fst) hle
  apply Multiset.mem_of_le this
  simpa using hmem

lemma insertAtTarget_spec [DecidableEq K] (k : K) (v : V) (lvl : Nat)
    (c : CommonCache K V) (hlt : lvl < c.levels.length) :
    (insertAtTarget k v lvl c).2.1 = lvl ∧
    Entry.peek_key_value (insertAtTarget k v lvl c).1 lvl
      (insertAtTarget k v lvl c).2.2 = some (k, v) ∧
    (insertAtTarget k v lvl c).1.generation = c.generation ∧
    (insertAtTarget k v lvl c).1.max_size = c.max_size ∧
    (insertAtTarget k v lvl c).1.levels.length = c.levels.length ∧
    itemsM (insertAtTarget k v lvl c).1 ≤ itemsM c + {(k, v)} ∧
    (k ∉ keysM c → itemsM (insertAtTarget k v lvl c).1 = itemsM c + {(k, v)}) := by
  classical
  obtain ⟨L, hL⟩ : ∃ L, c.levels[lvl]? = some L := ⟨_, List.getElem?_eq_getElem hlt⟩
  have heq : insertAtTarget k v lvl c = ({ c with levels := c.levels.set lvl ({ L with items := (insertFull k v L.items).2.2 }) }, lvl, (insertFull k v L.items).1) := by
    simp only [insertAtTarget, List.get?_eq_getElem?, hL]
  have h1 : (↑(levelsItems (c.levels.set lvl
      ({ L with items := (insertFull k v L.items).2.2 }))) : Multiset (K × V))
      + ↑L.items = ↑(levelsItems c.levels) + ↑(insertFull k v L.items).2.2 :=
    levelsItems_set_coe _ hL
  have hle2 : (↑(insertFull k v L.items).2.2 : Multiset (K × V)) ≤ ↑L.items + {(k, v)} :=
    insertFull_coe_le k v L.items
  refine ⟨by rw [heq], ?_, by rw [heq], by rw [heq], ?_, ?_, ?_⟩
  · rw [heq]
    unfold Entry.peek_key_value
    have hset : (c.levels.set lvl ({ L with items := (insertFull k v L.items).2.2 }))[lvl]? =
        some ({ L with items := (insertFull k v L.items).2.2 }) := by
      simp [List.getElem?_set_self', hlt]
    rw [List.get?_eq_getElem?, hset]
    simpa using insertFull_slot k v L.items
  · rw [heq]
    simp [List.length_set]
  · rw [heq, Multiset.le_iff_count]
    intro a
    have e1 := congrArg (Multiset.count a) h1
    have e2 := Multiset.le_iff_count.mp hle2 a
    by_cases ha : a = (k, v)
    · simp only [itemsM, allItems, Multiset.count_add, ha,
        Multiset.count_singleton_self] at e1 e2 ⊢
      omega
    · simp only [itemsM, allItems, Multiset.count_add, Multiset.count_singleton,
        if_neg ha] at e1 e2 ⊢
      omega
  · intro hk
    have habs : k ∉ L.items.map Prod.fst := notin_level_keys_of_notin_keysM hL hk
    have heq2 : (↑(insertFull k v L.items).2.2 : Multiset (K × V)) = ↑L.items + {(k, v)} := by
      rw [insertFull_absent v habs]
      simp [← Multiset.coe_add]
    rw [heq]
    apply Multiset.ext.mpr
    intro a
    have e1 := congrArg (Multiset.count a) h1
    have e2 := congrArg (Multiset.count a) heq2
    by_cases ha : a = (k, v)
    · simp only [itemsM, allItems, Multiset.count_add, ha,
        Multiset.count_singleton_self] at e1 e2 ⊢
      omega
    · simp only [itemsM, allItems, Multiset.count_add, Multiset.count_singleton,
        if_neg ha] at e1 e2 ⊢
      omega

end CommonCacheModel

namespace CommonCacheModel

variable {K V : Type}

lemma insertAtTarget_frame [DecidableEq K] (k : K) (v : V) (lvl : Nat)
    (c : CommonCache K V) :
    (insertAtTarget k v lvl c).1.generation = c.generation ∧
    (insertAtTarget k v lvl c).1.max_size = c.max_size := by
  unfold insertAtTarget
  cases h : c.levels.get? lvl <;> simp

lemma evictOne_frame (c : CommonCache K V) :
    (evictOne c).generation = c.generation ∧
    (evictOne c).max_size = c.max_size := by
  unfold evictOne
  cases h : c.levels.getLast? with
  | none => simp
  | some L =>
    cases hs : swapRemoveIndex (drawNat c.rng L.items.length).1 L.items with
    | none => simp [hs]
    | some pr => simp [hs]

lemma insert_at_level_frame [DecidableEq K] (b : Bool) (k : K) (v : V) (lvl : Nat)
    (c : CommonCache K V) :
    (insert_at_level b k v lvl c).1.generation = c.generation + 1 ∧
    (insert_at_level b k v lvl c).1.max_size = c.max_size := by
  unfold insert_at_level
  set c1 : CommonCache K V := { c with generation := c.generation + 1 } with hc1
  set c2 : CommonCache K V := if c1.size = c1.max_size then evictOne c1 else c1 with hc2
  have h2 : c2.generation = c1.generation ∧ c2.max_size = c1.max_size := by
    rw [hc2]
    by_cases hcond : c1.size = c1.max_size
    · simp only [if_pos hcond]
      exact evictOne_frame c1
    · simp [if_neg hcond]
  obtain ⟨e1, e2, e3, _⟩ := ensureLevel_spec c2
  obtain ⟨g4, m4, _, _, _, _⟩ := cascade_spec b lvl (ensureLevel c2)
  obtain ⟨g5, m5⟩ := insertAtTarget_frame k v lvl (cascade b lvl (ensureLevel c2))
  constructor
  · rw [g5, g4, e2, h2.1]
  · rw [m5, m4, e3, h2.2]

lemma insert_at_level_no_evict [DecidableEq K] (b : Bool) (k : K) (v : V) (lvl : Nat)
    (c : CommonCache K V) (hne : ¬ c.size = c.max_size)
    (hlvl : lvl = 0 ∨ lvl < c.levels.length) :
    (insert_at_level b k v lvl c).2.1 = lvl ∧
    Entry.peek_key_value (insert_at_level b k v lvl c).1 lvl
      (insert_at_level b k v lvl c).2.2 = some (k, v) ∧
    itemsM (insert_at_level b k v lvl c).1 ≤ itemsM c + {(k, v)} ∧
    (b = false →
      (insert_at_level b k v lvl c).1.levels.length = max 1 c.levels.length) ∧
    ((k ∉ keysM c ∧ (keysM c).Nodup ∧ b = true) →
      itemsM (insert_at_level b k v lvl c).1 = itemsM c + {(k, v)}) := by
  classical
  have hne1 : ¬ ({ c with generation := c.generation + 1 } : CommonCache K V).size =
      ({ c with generation := c.generation + 1 } : CommonCache K V).max_size := hne
  have heq : insert_at_level b k v lvl c =
      insertAtTarget k v lvl
        (cascade b lvl (ensureLevel ({ c with generation := c.generation + 1 }))) := by
    simp only [insert_at_level]
    rw [if_neg hne1]
  have hens := ensureLevel_spec ({ c with generation := c.generation + 1 } : CommonCache K V)
  obtain ⟨ei, _, _, elen⟩ := hens
  obtain ⟨_, _, clen, clenf, cle, ceq⟩ :=
    cascade_spec b lvl (ensureLevel ({ c with generation := c.generation + 1 }))
  have hitems_ens : itemsM (ensureLevel ({ c with generation := c.generation + 1 } :
      CommonCache K V)) = itemsM c := by
    rw [ei]
    rfl
  have hkeys_ens : keysM (ensureLevel ({ c with generation := c.generation + 1 } :
      CommonCache K V)) = keysM c := by
    unfold keysM
    rw [hitems_ens]
  have hlen_ens : (ensureLevel ({ c with generation := c.generation + 1 } :
      CommonCache K V)).levels.length = max 1 c.levels.length := elen
  have hlt : lvl < (cascade b lvl (ensureLevel ({ c with generation := c.generation + 1 } :
      CommonCache K V))).levels.length := by
    rcases hlvl with h0 | hlt
    · subst h0
      have : 1 ≤ max 1 c.levels.length := le_max_left _ _
      omega
    · have : lvl < max 1 c.levels.length := lt_of_lt_of_le hlt (le_max_right _ _)
      omega
  obtain ⟨r1, r2, _, _, rlen, rle, req⟩ :=
    insertAtTarget_spec k v lvl
      (cascade b lvl (ensureLevel ({ c with generation := c.generation + 1 }))) hlt
  refine ⟨by rw [heq, r1], by rw [heq]; exact r2, ?_, ?_, ?_⟩
  · rw [heq]
    calc itemsM (insertAtTarget k v lvl
          (cascade b lvl (ensureLevel ({ c with generation := c.generation + 1 })))).1
        ≤ itemsM (cascade b lvl (ensureLevel ({ c with generation := c.generation + 1 })))
            + {(k, v)} := rle
      _ ≤ itemsM c + {(k, v)} := by
          apply add_le_add_right
          calc itemsM (cascade b lvl (ensureLevel ({ c with generation := c.generation + 1 })))
              ≤ itemsM (ensureLevel ({ c with generation := c.generation + 1 })) := cle
            _ = itemsM c := hitems_ens
  · intro hb
    rw [heq, rlen, clenf hb, hlen_ens]
  · rintro ⟨hk, hnd, hb⟩
    have hnd' : (keysM (ensureLevel ({ c with generation := c.generation + 1 } :
        CommonCache K V))).Nodup := by
      rw [hkeys_ens]
      exact hnd
    have hceq := ceq hnd' hb
    have hk4 : k ∉ keysM (cascade b lvl (ensureLevel
        ({ c with generation := c.generation + 1 }))) := by
      unfold keysM
      rw [hceq, hitems_ens]
      exact hk
    rw [heq, req hk4, hceq, hitems_ens]

lemma insert_at_level_evict [DecidableEq K] (k : K) (v : V) (lvl : Nat)
    (c : CommonCache K V) (hsz : c.size = c.max_size) (hpos : 0 < c.size)
    (hlast : lastLevelOk c = true)
    (hlvl : lvl = 0 ∨ lvl + 1 < c.levels.length)
    (hk : k ∉ keysM c) (hnd : (keysM c).Nodup) :
    (insert_at_level true k v lvl c).2.1 = lvl ∧
    Entry.peek_key_value (insert_at_level true k v lvl c).1 lvl
      (insert_at_level true k v lvl c).2.2 = some (k, v) ∧
    ∃ x, x ∈ itemsM c ∧
      itemsM (insert_at_level true k v lvl c).1 + {x} = itemsM c + {(k, v)} := by
  classical
  have hsz1 : ({ c with generation := c.generation + 1 } : CommonCache K V).size =
      ({ c with generation := c.generation + 1 } : CommonCache K V).max_size := hsz
  have heq : insert_at_level true k v lvl c =
      insertAtTarget k v lvl
        (cascade true lvl (ensureLevel
          (evictOne ({ c with generation := c.generation + 1 })))) := by
    simp only [insert_at_level]
    rw [if_pos hsz1]
  have hlast1 : lastLevelOk ({ c with generation := c.generation + 1 } :
      CommonCache K V) = true := hlast
  have hne1 : ({ c with generation := c.generation + 1 } : CommonCache K V).levels ≠ [] := by
    have : (0 : Nat) < ({ c with generation := c.generation + 1 } :
        CommonCache K V).size := hpos
    exact levels_ne_nil_of_size_pos this
  obtain ⟨x, hx_items, _, _, hevlen1, hevlen2, _⟩ := evictOne_spec hlast1 hne1
  have hx_mem : x ∈ itemsM c := mem_of_remove_coe hx_items
  have hevle : itemsM (evictOne ({ c with generation := c.generation + 1 } :
      CommonCache K V)) ≤ itemsM c := by
    have : itemsM (evictOne ({ c with generation := c.generation + 1 } :
        CommonCache K V)) ≤ itemsM (evictOne ({ c with generation := c.generation + 1 } :
        CommonCache K V)) + {x} := self_le_add_right _ _
    rw [hx_items] at this
    exact this
  have hkev : k ∉ keysM (evictOne ({ c with generation := c.generation + 1 } :
      CommonCache K V)) := notin_keysM_of_le hevle hk
  have hndev : (keysM (evictOne ({ c with generation := c.generation + 1 } :
      CommonCache K V))).Nodup :=
    Multiset.nodup_of_le (keysM_le_of_itemsM_le hevle) hnd
  obtain ⟨eni, _, _, enlen⟩ :=
    ensureLevel_spec (evictOne ({ c with generation := c.generation + 1 } : CommonCache K V))
  have hkens : k ∉ keysM (ensureLevel (evictOne
      ({ c with generation := c.generation + 1 } : CommonCache K V))) := by
    unfold keysM
    rw [eni]
    exact hkev
  have hndens : (keysM (ensureLevel (evictOne
      ({ c with generation := c.generation + 1 } : CommonCache K V)))).Nodup := by
    unfold keysM
    rw [eni]
    exact hndev
  obtain ⟨_, _, clen, _, _, ceq⟩ :=
    cascade_spec true lvl (ensureLevel (evictOne
      ({ c with generation := c.generation + 1 })))
  have hceq := ceq hndens rfl
  have hkc4 : k ∉ keysM (cascade true lvl (ensureLevel (evictOne
      ({ c with generation := c.generation + 1 })))) := by
    unfold keysM
    rw [hceq]
    exact hkens
  have hlt : lvl < (cascade true lvl (ensureLevel (evictOne
      ({ c with generation := c.generation + 1 } : CommonCache K V)))).levels.length := by
    rcases hlvl with h0 | hlt2
    · subst h0
      have h1 : 1 ≤ max 1 (evictOne ({ c with generation := c.generation + 1 } :
          CommonCache K V)).levels.length := le_max_left _ _
      omega
    · have hci : ({ c with generation := c.generation + 1 } :
          CommonCache K V).levels.length = c.levels.length := rfl
      omega
  obtain ⟨r1, r2, _, _, _, _, req⟩ :=
    insertAtTarget_spec k v lvl
      (cascade true lvl (ensureLevel (evictOne
        ({ c with generation := c.generation + 1 })))) hlt
  refine ⟨by rw [heq, r1], by rw [heq]; exact r2, x, hx_mem, ?_⟩
  rw [heq, req hkc4, hceq, eni]
  have hfin : itemsM (evictOne ({ c with generation := c.generation + 1 } :
      CommonCache K V)) + {x} = itemsM c := hx_items
  rw [add_right_comm, hfin]

end CommonCacheModel

namespace CommonCacheModel

variable {K V : Type}

lemma findKey_shift [DecidableEq K] (k : K) (ls : List (Level K V)) (off : Nat) :
    findKey k ls off = (findKey k ls 0).map (fun li => (li.1 + off, li.2)) := by
  induction ls generalizing off with
  | nil => simp [findKey]
  | cons L t ih =>
    cases hg : getIndexOf k L.items with
    | some j => simp [findKey, hg]
    | none =>
      simp only [findKey, hg]
      rw [ih (off + 1), ih 1]
      cases hf : findKey k t 0 with
      | none => simp
      | some q => simp [Prod.ext_iff]; omega

lemma findKey_some_spec [DecidableEq K] {k : K} :
    ∀ (ls : List (Level K V)) (l i : Nat), findKey k ls 0 = some (l, i) →
      ∃ L p, ls[l]? = some L ∧ L.items[i]? = some p ∧ p.1 = k := by
  intro ls
  induction ls with
  | nil => intro l i h; simp [findKey] at h
  | cons L t ih =>
    intro l i h
    cases hg : getIndexOf k L.items with
    | some j =>
      simp [findKey, hg] at h
      obtain ⟨rfl, rfl⟩ := h
      obtain ⟨p, hp, hpk⟩ := getIndexOf_some k L.items j hg
      exact ⟨L, p, by simp, hp, hpk⟩
    | none =>
      simp only [findKey, hg] at h
      rw [findKey_shift k t 1] at h
      cases hf : findKey k t 0 with
      | none => rw [hf] at h; simp at h
      | some q =>
        rw [hf] at h
        simp at h
        obtain ⟨rfl, rfl⟩ := h
        obtain ⟨L', p, hL', hp, hpk⟩ := ih q.1 q.2 (by simpa using hf)
        exact ⟨L', p, by simpa using hL', hp, hpk⟩

lemma entry_some_spec [DecidableEq K] {c : CommonCache K V} {k : K} {l i : Nat}
    (h : c.entry k = some (l, i)) :
    ∃ L p, c.levels[l]? = some L ∧ L.items[i]? = some p ∧ p.1 = k :=
  findKey_some_spec c.levels l i h

lemma findKey_none_spec [DecidableEq K] {k : K} :
    ∀ (ls : List (Level K V)) (off : Nat), findKey k ls off = none →
      k ∉ (levelsItems ls).map Prod.fst := by
  intro ls
  induction ls with
  | nil => intro off h; simp [levelsItems_nil]
  | cons L t ih =>
    intro off h
    cases hg : getIndexOf k L.items with
    | some j => simp [findKey, hg] at h
    | none =>
      simp only [findKey, hg] at h
      have h1 := (getIndexOf_none_iff k L.items).mp hg
      have h2 := ih (off + 1) h
      intro hmem
      rw [levelsItems_cons, List.map_append, List.mem_append] at hmem
      cases hmem with
      | inl hm => exact h1 hm
      | inr hm => exact h2 hm

lemma entry_none_spec [DecidableEq K] {c : CommonCache K V} {k : K}
    (h : c.entry k = none) : k ∉ keysM c := by
  have := findKey_none_spec c.levels 0 h
  rw [keysM_coe]
  intro hmem
  exact this (by simpa [allKeys, allItems] using hmem)

lemma keysM_nodup_of_nodup {c : CommonCache K V} (h : (allKeys c).Nodup) :
    (keysM c).Nodup := by
  rw [keysM_coe]
  exact Multiset.coe_nodup.mpr h

lemma removeFromRaw_key_notin [DecidableEq K] {c c' : CommonCache K V} {x : K × V}
    (hid : itemsM c' + {x} = itemsM c) (hnd : (keysM c).Nodup) :
    x.1 ∉ keysM c' ∧ (keysM c').Nodup := by
  classical
  have hkeys : keysM c' + {x.1} = keysM c := by
    have := congrArg (Multiset.map Prod.fst) hid
    simpa [keysM] using this
  constructor
  · intro hmem
    have h1 : 1 ≤ Multiset.count x.1 (keysM c') := by
      rw [Multiset.one_le_count_iff_mem]
      exact hmem
    have h2 := Multiset.nodup_iff_count_le_one.mp hnd x.1
    have h3 := congrArg (Multiset.count x.1) hkeys
    simp only [Multiset.count_add, Multiset.count_singleton_self] at h3
    omega
  · apply Multiset.nodup_of_le _ hnd
    rw [← hkeys]
    exact self_le_add_right _ _

lemma removeFromRaw_gen {c c' : CommonCache K V} {lvl idx : Nat} {x : K × V}
    (h : removeFromRaw c lvl idx = some (x, c')) :
    c'.generation = c.generation ∧ c'.max_size = c.max_size := by
  cases hL : c.levels[lvl]? with
  | none =>
    simp only [removeFromRaw, List.get?_eq_getElem?, hL] at h
    exact Option.noConfusion h
  | some L =>
    cases hs : swapRemoveIndex idx L.items with
    | none =>
      simp only [removeFromRaw, List.get?_eq_getElem?, hL, hs] at h
      exact Option.noConfusion h
    | some pr =>
      obtain ⟨y, items'⟩ := pr
      simp only [removeFromRaw, List.get?_eq_getElem?, hL, hs, Option.some.injEq,
        Prod.mk.injEq] at h
      obtain ⟨-, h2⟩ := h
      rw [← h2]
      exact ⟨rfl, rfl⟩

lemma findIdxPred_none {p : K → V → Bool} :
    ∀ items : List (K × V), (∀ x ∈ items, p x.1 x.2 = false) →
      findIdxPred p items = none := by
  intro items
  induction items with
  | nil => intro _; rfl
  | cons kv t ih =>
    intro h
    have h1 : p kv.1 kv.2 = false := h kv (by simp)
    simp [findIdxPred, h1]
    exact ih fun x hx => h x (by simp [hx])

lemma findFirstAux_none {p : K → V → Bool} :
    ∀ (ls : List (Level K V)) (off : Nat),
      (∀ x ∈ levelsItems ls, p x.1 x.2 = false) → findFirstAux p ls off = none := by
  intro ls
  induction ls with
  | nil => intro off _; rfl
  | cons L t ih =>
    intro off h
    have h1 : findIdxPred p L.items = none :=
      findIdxPred_none L.items fun x hx => h x (by simp [levelsItems_cons, hx])
    simp only [findFirstAux, h1]
    exact ih (off + 1) fun x hx => h x (by simp [levelsItems_cons, hx])

end CommonCacheModel

namespace CommonCacheModel

variable {K V : Type}

/-- C5: For every cache and every key k occupying some level ℓ, a
promoting get operation (Entry::get_key_value / get_value / get_long,
or Index::get_key_value / get_value, which delegate to the same
promotion) leaves k present in the cache afterwards, at level
max(ℓ-1, 0) (the returned coordinates point at the slot holding
(k, v)); the promotion never creates a new level, and the promoted key
itself is never the item discarded. -/
theorem C5_promotion_never_self_discards [DecidableEq K] (c : CommonCache K V) (k : K)
    (v : V) (lvl idx : Nat) (L : Level K V)
    (hL : c.levels[lvl]? = some L) (hx : L.items[idx]? = some (k, v))
    (hsz : c.size ≤ c.max_size) :
    ∃ r : CommonCache K V × Nat × Nat,
      Entry.get_key_value c lvl idx = some r ∧
      r.2.1 = lvl - 1 ∧
      Entry.peek_key_value r.1 (lvl - 1) r.2.2 = some (k, v) ∧
      r.1.levels.length ≤ c.levels.length ∧
      Index.get_key_value ⟨lvl, idx, c.generation⟩ c = some r := by
  classical
  obtain ⟨c', hrem, hid, hgen, hmax, hlen1, hlen2, hsize⟩ := removeFromRaw_spec hL hx
  have hlt : lvl < c.levels.length := by
    by_contra hge
    rw [List.getElem?_eq_none (by omega)] at hL
    exact Option.noConfusion hL
  have hne' : ¬ c'.size = c'.max_size := by
    intro hcontra
    rw [hmax] at hcontra
    omega
  have hlvl' : lvl - 1 = 0 ∨ lvl - 1 < c'.levels.length := by
    cases Nat.eq_zero_or_pos lvl with
    | inl h0 => left; omega
    | inr hp => right; omega
  obtain ⟨r1, r2, _, rlenf, _⟩ := insert_at_level_no_evict false k v (lvl - 1) c' hne' hlvl'
  refine ⟨insert_at_level false k v (lvl - 1) c', ?_, r1, r2, ?_, ?_⟩
  · unfold Entry.get_key_value
    rw [hrem]
    rfl
  · rw [rlenf rfl]
    omega
  · simp only [Index.get_key_value, Index.remove_from, Index.generationOk]
    rw [if_pos (by simp), hrem]
    rfl

/-- Witness for C5 on a reachable state: promoting "a" (at level 1,
slot 0) of `sB` keeps "a" in the cache at level 0 with its value. -/
theorem C5_witness :
    ∃ r : CommonCache String Nat × Nat × Nat,
      Entry.get_key_value sB 1 0 = some r ∧
      r.2.1 = 1 - 1 ∧
      Entry.peek_key_value r.1 (1 - 1) r.2.2 = some ("a", 1) ∧
      r.1.levels.length ≤ sB.levels.length ∧
      Index.get_key_value ⟨1, 0, sB.generation⟩ sB = some r :=
  C5_promotion_never_self_discards sB "a" 1 1 0 { items := [("a", 1)], cap := 2 }
    (by decide) (by decide) (by decide)

end CommonCacheModel

namespace CommonCacheModel

variable {K V : Type}

lemma insert_spec [DecidableEq K] (c : CommonCache K V) (k : K) (v : V)
    (hmax : 2 ≤ c.max_size) (hsz : c.size ≤ c.max_size)
    (hnd : (keysM c).Nodup) (hlast : lastLevelOk c = true) :
    (∀ l i, c.entry k = some (l, i) → (c.insert k v).2.1 = l - 1) ∧
    (c.entry k = none → (c.insert k v).2.1 = c.levels.length - 2) ∧
    Entry.peek_key_value (c.insert k v).1 (c.insert k v).2.1 (c.insert k v).2.2 =
      some (k, v) ∧
    Multiset.count k (keysM (c.insert k v).1) = 1 ∧
    (c.entry k ≠ none → (c.insert k v).1.size = c.size) ∧
    (c.entry k = none → c.size < c.max_size → (c.insert k v).1.size = c.size + 1) ∧
    (c.entry k = none → c.size = c.max_size →
      (c.insert k v).1.size = c.size ∧
      ∃ x, x ∈ itemsM c ∧ x.1 ≠ k ∧
        itemsM (c.insert k v).1 + {x} = itemsM c + {(k, v)}) := by
  classical
  cases hent : c.entry k with
  | some li =>
    obtain ⟨l, i⟩ := li
    obtain ⟨L, p, hL, hp, hpk⟩ := entry_some_spec hent
    obtain ⟨c', hrem, hid, hgen, hmaxe, hlen1, hlen2, hsize⟩ := removeFromRaw_spec hL hp
    have heq : c.insert k v = insert_at_level true k v (l - 1) c' := by
      simp only [CommonCache.insert, hent, hrem]
    have hlt : l < c.levels.length := by
      by_contra hge
      rw [List.getElem?_eq_none (by omega)] at hL
      exact Option.noConfusion hL
    obtain ⟨hknotin, hnd'⟩ := removeFromRaw_key_notin hid hnd
    rw [hpk] at hknotin
    have hne' : ¬ c'.size = c'.max_size := by
      intro hcontra
      rw [hmaxe] at hcontra
      omega
    have hlvl' : l - 1 = 0 ∨ l - 1 < c'.levels.length := by
      cases Nat.eq_zero_or_pos l with
      | inl h0 => left; omega
      | inr hpos => right; omega
    obtain ⟨ret, peek, _, _, eqimp⟩ :=
      insert_at_level_no_evict true k v (l - 1) c' hne' hlvl'
    have hitems := eqimp ⟨hknotin, hnd', rfl⟩
    have hkeys : keysM (insert_at_level true k v (l - 1) c').1 = keysM c' + {k} := by
      unfold keysM
      rw [hitems]
      simp
    have hcount : Multiset.count k (keysM (insert_at_level true k v (l - 1) c').1) = 1 := by
      rw [hkeys]
      simp [Multiset.count_eq_zero.mpr hknotin]
    have hsz' : (insert_at_level true k v (l - 1) c').1.size = c.size := by
      rw [size_eq_card, hitems]
      simp only [Multiset.card_add, Multiset.card_singleton]
      rw [← size_eq_card]
      omega
    refine ⟨?_, ?_, ?_, ?_, ?_, ?_, ?_⟩
    · intro l' i' h'
      obtain ⟨rfl, rfl⟩ : l = l' ∧ i = i' := by
        simpa [Prod.ext_iff] using h'
      rw [heq]
      exact ret
    · intro h'
      exact Option.noConfusion h'
    · rw [heq]
      have h21 : (insert_at_level true k v (l - 1) c').2.1 = l - 1 := ret
      rw [h21]
      exact peek
    · rw [heq]
      exact hcount
    · intro _
      rw [heq]
      exact hsz'
    · intro h'
      exact Option.noConfusion h'
    · intro h'
      exact Option.noConfusion h'
  | none =>
    have hk := entry_none_spec hent
    have heq : c.insert k v = insert_at_level true k v (c.levels.length - 2) c := by
      simp only [CommonCache.insert, hent]
    by_cases hfull : c.size = c.max_size
    · have hpos : 0 < c.size := by omega
      have hlvl2 : c.levels.length - 2 = 0 ∨ c.levels.length - 2 + 1 < c.levels.length := by
        omega
      obtain ⟨ret, peek, x, hxmem, hxid⟩ :=
        insert_at_level_evict k v (c.levels.length - 2) c hfull hpos hlast hlvl2 hk hnd
      have hxk : x.1 ≠ k := by
        intro hcontra
        apply hk
        rw [← hcontra]
        unfold keysM
        exact Multiset.mem_map_of_mem _ hxmem
      have hkeysid : keysM (insert_at_level true k v (c.levels.length - 2) c).1 + {x.1} =
          keysM c + {k} := by
        have := congrArg (Multiset.map Prod.fst) hxid
        simpa [keysM] using this
      have hcount : Multiset.count k
          (keysM (insert_at_level true k v (c.levels.length - 2) c).1) = 1 := by
        have h1 := congrArg (Multiset.count k) hkeysid
        simp only [Multiset.count_add, Multiset.count_singleton_self,
          Multiset.count_singleton] at h1
        rw [if_neg (by exact fun h => hxk h.symm)] at h1
        have h2 : Multiset.count k (keysM c) = 0 := Multiset.count_eq_zero.mpr hk
        omega
      have hszeq : (insert_at_level true k v (c.levels.length - 2) c).1.size = c.size := by
        have h1 := congrArg Multiset.card hxid
        simp only [Multiset.card_add, Multiset.card_singleton] at h1
        rw [size_eq_card, size_eq_card]
        omega
      refine ⟨?_, ?_, ?_, ?_, ?_, ?_, ?_⟩
      · intro l' i' h'
        exact Option.noConfusion h'
      · intro _
        rw [heq]
        exact ret
      · rw [heq]
        have h21 : (insert_at_level true k v (c.levels.length - 2) c).2.1 =
            c.levels.length - 2 := ret
        rw [h21]
        exact peek
      · rw [heq]
        exact hcount
      · intro h'
        exact absurd rfl h'
      · intro _ hlt'
        omega
      · intro _ _
        rw [heq]
        exact ⟨hszeq, x, hxmem, hxk, hxid⟩
    · have hlvl2 : c.levels.length - 2 = 0 ∨ c.levels.length - 2 < c.levels.length := by
        omega
      obtain ⟨ret, peek, _, _, eqimp⟩ :=
        insert_at_level_no_evict true k v (c.levels.length - 2) c hfull hlvl2
      have hitems := eqimp ⟨hk, hnd, rfl⟩
      have hkeys2 : keysM (insert_at_level true k v (c.levels.length - 2) c).1 =
          keysM c + {k} := by
        unfold keysM
        rw [hitems]
        simp
      have hcount : Multiset.count k
          (keysM (insert_at_level true k v (c.levels.length - 2) c).1) = 1 := by
        rw [hkeys2]
        simp [Multiset.count_eq_zero.mpr hk]
      have hszeq : (insert_at_level true k v (c.levels.length - 2) c).1.size =
          c.size + 1 := by
        rw [size_eq_card, hitems]
        simp only [Multiset.card_add, Multiset.card_singleton]
        rw [← size_eq_card]
      refine ⟨?_, ?_, ?_, ?_, ?_, ?_, ?_⟩
      · intro l' i' h'
        exact Option.noConfusion h'
      · intro _
        rw [heq]
        exact ret
      · rw [heq]
        have h21 : (insert_at_level true k v (c.levels.length - 2) c).2.1 =
            c.levels.length - 2 := ret
        rw [h21]
        exact peek
      · rw [heq]
        exact hcount
      · intro h'
        exact absurd rfl h'
      · intro _ _
        rw [heq]
        exact hszeq
      · intro _ hfull'
        exact absurd hfull' hfull

end CommonCacheModel

namespace CommonCacheModel

variable {K V : Type}

/-- C7: insert(key, value) with a key already at level ℓ removes it
there and settles at level max(ℓ-1, 0); insert with a new key settles
at level max(levels.count()-2, 0); in both cases the returned handle
coordinates point at the slot now holding (key, value), and the key
occupies exactly one slot afterwards. -/
theorem C7_insert_placement [DecidableEq K] (c : CommonCache K V) (k : K) (v : V)
    (hwf : Wf c) :
    (∀ l i, c.entry k = some (l, i) → (c.insert k v).2.1 = l - 1) ∧
    (c.entry k = none → (c.insert k v).2.1 = c.levels.length - 2) ∧
    Entry.peek_key_value (c.insert k v).1 (c.insert k v).2.1 (c.insert k v).2.2 =
      some (k, v) ∧
    Multiset.count k (keysM (c.insert k v).1) = 1 := by
  obtain ⟨hmax, hsz, hndl, hlast⟩ := hwf
  obtain ⟨a1, a2, a3, a4, _, _, _⟩ :=
    insert_spec c k v hmax hsz (keysM_nodup_of_nodup hndl) hlast
  exact ⟨a1, a2, a3, a4⟩

/-- Witness for C7 on the reachable state `sB`: inserting the fresh key
"c" places it at level max(2-2, 0) = 0 and the returned coordinates
read back ("c", 3). -/
theorem C7_insert_placement_witness :
    (sB.entry "c" = none → (sB.insert "c" 3).2.1 = sB.levels.length - 2) ∧
    Entry.peek_key_value (sB.insert "c" 3).1 (sB.insert "c" 3).2.1
      (sB.insert "c" 3).2.2 = some ("c", 3) ∧
    Multiset.count "c" (keysM (sB.insert "c" 3).1) = 1 := by
  have h := C7_insert_placement sB "c" 3 (by decide)
  exact ⟨h.2.1, h.2.2.1, h.2.2.2⟩

/-- C10: for every well-formed cache and any random stream, inserting an
already-present key leaves size() unchanged; inserting a fresh key adds
one to size() when below capacity, and keeps size() = max_size when at
capacity, evicting exactly one other item (an item x ≠ key that the new
multiset identity accounts for). -/
theorem C10_insert_size_law [DecidableEq K] (c : CommonCache K V) (k : K) (v : V)
    (hwf : Wf c) :
    (c.entry k ≠ none → (c.insert k v).1.size = c.size) ∧
    (c.entry k = none → c.size < c.max_size → (c.insert k v).1.size = c.size + 1) ∧
    (c.entry k = none → c.size = c.max_size →
      (c.insert k v).1.size = c.size ∧
      ∃ x, x ∈ itemsM c ∧ x.1 ≠ k ∧
        itemsM (c.insert k v).1 + {x} = itemsM c + {(k, v)}) := by
  obtain ⟨hmax, hsz, hndl, hlast⟩ := hwf
  obtain ⟨_, _, _, _, b1, b2, b3⟩ :=
    insert_spec c k v hmax hsz (keysM_nodup_of_nodup hndl) hlast
  exact ⟨b1, b2, b3⟩

/-- Witness for C10 on the reachable state `trace3` (3 items, max_size
3): inserting the fresh key 4 keeps size() = 3 and evicts exactly one
other item. -/
theorem C10_insert_size_law_witness :
    (trace3.insert 4 40).1.size = trace3.size ∧
    ∃ x, x ∈ itemsM trace3 ∧ x.1 ≠ 4 ∧
      itemsM (trace3.insert 4 40).1 + {x} = itemsM trace3 + {(4, 40)} :=
  (C10_insert_size_law trace3 4 40 (by decide)).2.2 (by decide) (by decide)

/-- C2 (amended): insert, promote (Entry/Index get_key_value), clear and
a shrinking set_max_size each advance generation() by exactly one;
remove of an occupied entry leaves generation() unchanged; a
non-shrinking set_max_size, find_first, and the peek operations leave
generation() unchanged. -/
theorem C2_generation_law_amended [DecidableEq K] (c : CommonCache K V) (k : K) (v : V)
    (lvl idx n : Nat) (p : K → V → Bool) (ix : Index) :
    ((c.insert k v).1.generation = c.generation + 1) ∧
    (∀ r, Entry.get_key_value c lvl idx = some r →
      r.1.generation = c.generation + 1) ∧
    (∀ r, Index.get_key_value ix c = some r → r.1.generation = c.generation + 1) ∧
    (∀ x, Entry.remove c lvl idx = some x → x.2.generation = c.generation) ∧
    (∀ x, Index.remove_from ix c = some x → x.2.generation = c.generation) ∧
    (c.clear.generation = c.generation + 1) ∧
    (∀ r, c.set_max_size n = some r →
      (c.max_size ≤ n → r.generation = c.generation) ∧
      (n < c.max_size → r.generation = c.generation + 1)) ∧
    ((c.find_first p).2 = c) ∧
    (∀ r, Index.peek_key_value_mut ix c = some r → r.2.generation = c.generation) := by
  classical
  refine ⟨?_, ?_, ?_, ?_, ?_, rfl, ?_, rfl, ?_⟩
  · cases hent : c.entry k with
    | some li =>
      obtain ⟨l, i⟩ := li
      obtain ⟨L, pr, hL, hp, hpk⟩ := entry_some_spec hent
      obtain ⟨c', hrem, _, hgen, _, _, _, _⟩ := removeFromRaw_spec hL hp
      have heq : c.insert k v = insert_at_level true k v (l - 1) c' := by
        simp only [CommonCache.insert, hent, hrem]
      rw [heq, (insert_at_level_frame true k v (l - 1) c').1, hgen]
    | none =>
      have heq : c.insert k v = insert_at_level true k v (c.levels.length - 2) c := by
        simp only [CommonCache.insert, hent]
      rw [heq]
      exact (insert_at_level_frame true k v (c.levels.length - 2) c).1
  · intro r hr
    cases hrm : removeFromRaw c lvl idx with
    | none => simp [Entry.get_key_value, hrm] at hr
    | some y =>
      obtain ⟨x, c'⟩ := y
      simp only [Entry.get_key_value, hrm, Option.map_some', Option.some.injEq] at hr
      obtain ⟨hg, -⟩ := removeFromRaw_gen hrm
      rw [← hr, (insert_at_level_frame false x.1 x.2 (lvl - 1) c').1, hg]
  · intro r hr
    unfold Index.get_key_value Index.remove_from at hr
    by_cases hgok : ix.generationOk c
    · rw [if_pos hgok] at hr
      cases hrm : removeFromRaw c ix.level ix.idx with
      | none => rw [hrm] at hr; exact Option.noConfusion hr
      | some y =>
        obtain ⟨x, c'⟩ := y
        rw [hrm] at hr
        simp only [Option.map_some', Option.some.injEq] at hr
        obtain ⟨hg, -⟩ := removeFromRaw_gen hrm
        rw [← hr, (insert_at_level_frame false x.1 x.2 (ix.level - 1) c').1, hg]
    · rw [if_neg hgok] at hr
      exact Option.noConfusion hr
  · intro x hx
    obtain ⟨y, c'⟩ := x
    exact (removeFromRaw_gen hx).1
  · intro x hx
    unfold Index.remove_from at hx
    by_cases hgok : ix.generationOk c
    · rw [if_pos hgok] at hx
      obtain ⟨y, c'⟩ := x
      exact (removeFromRaw_gen hx).1
    · rw [if_neg hgok] at hx
      exact Option.noConfusion hx
  · intro r hr
    unfold CommonCache.set_max_size at hr
    by_cases h2 : n < 2
    · rw [if_pos h2] at hr
      exact Option.noConfusion hr
    · rw [if_neg h2] at hr
      by_cases hge : c.max_size ≤ n
      · rw [if_pos hge] at hr
        simp only [Option.some.injEq] at hr
        constructor
        · intro _
          rw [← hr]
        · intro hlt
          omega
      · rw [if_neg hge] at hr
        simp only [Option.some.injEq] at hr
        constructor
        · intro hge'
          exact absurd hge' hge
        · intro _
          rw [← hr]
  · intro r hr
    unfold Index.peek_key_value_mut at hr
    by_cases hgok : ix.generationOk c
    · rw [if_pos hgok] at hr
      cases hpk : Entry.peek_key_value c ix.level ix.idx with
      | none => rw [hpk] at hr; exact Option.noConfusion hr
      | some kv =>
        rw [hpk] at hr
        simp only [Option.map_some', Option.some.injEq] at hr
        rw [← hr]
    · rw [if_neg hgok] at hr
      exact Option.noConfusion hr

/-- Witness for C2 (amended) on the reachable state `sB`: a fresh-key
insert and a clear each bump the generation by one. -/
theorem C2_generation_law_amended_witness :
    ((sB.insert "c" 3).1.generation = sB.generation + 1) ∧
    (sB.clear.generation = sB.generation + 1) := by
  have h := C2_generation_law_amended sB "c" 3 0 0 5 (fun _ _ => false) ⟨0, 0, 99⟩
  exact ⟨h.1, h.2.2.2.2.2.1⟩

/-- C6: every detached-handle operation first validates the stored
generation against the cache's current one and fails without touching
storage on a mismatch; after a successful validation the peek variants
coincide with the transient peeks and leave the state unchanged. -/
theorem C6_stale_handle_validation [DecidableEq K] (c : CommonCache K V) (ix : Index) :
    (ix.generation ≠ c.generation →
      ix.entry c = none ∧
      ix.peek_key_value c = none ∧
      ix.peek_key c = none ∧
      ix.peek_value c = none ∧
      ix.peek_key_value_mut c = none ∧
      ix.peek_value_mut c = none ∧
      ix.get_key_value c = none ∧
      ix.remove_from c = none) ∧
    (ix.generation = c.generation →
      ix.peek_key_value c = Entry.peek_key_value c ix.level ix.idx ∧
      ix.peek_key c = Entry.peek_key c ix.level ix.idx ∧
      ix.peek_value c = Entry.peek_value c ix.level ix.idx ∧
      ix.peek_key_value_mut c =
        (Entry.peek_key_value c ix.level ix.idx).map (fun kv => (kv, c)) ∧
      (∀ r, ix.peek_key_value_mut c = some r → r.2 = c) ∧
      ix.entry c = some (ix.level, ix.idx)) := by
  constructor
  · intro hne
    have hgok : ix.generationOk c = false := by
      simp [Index.generationOk, hne]
    simp [Index.entry, Index.peek_key_value, Index.peek_key, Index.peek_value,
      Index.peek_key_value_mut, Index.peek_value_mut, Index.get_key_value,
      Index.remove_from, hgok]
  · intro heq
    have hgok : ix.generationOk c = true := by
      simp [Index.generationOk, heq]
    refine ⟨?_, ?_, ?_, ?_, ?_, ?_⟩
    · simp [Index.peek_key_value, hgok]
    · simp [Index.peek_key, Index.peek_key_value, Entry.peek_key, hgok]
    · simp [Index.peek_value, Index.peek_key_value, Entry.peek_value, hgok]
    · simp [Index.peek_key_value_mut, hgok]
    · intro r hr
      unfold Index.peek_key_value_mut at hr
      rw [if_pos hgok] at hr
      cases hpk : Entry.peek_key_value c ix.level ix.idx with
      | none => rw [hpk] at hr; exact Option.noConfusion hr
      | some kv =>
        rw [hpk] at hr
        simp only [Option.map_some', Option.some.injEq] at hr
        rw [← hr]
    · simp [Index.entry, hgok]

/-- Witness for C6 on the reachable state `sB` (generation 2): a
detached handle stamped with generation 99 is rejected by every
operation, and one stamped with the current generation peeks exactly
like the transient handle. -/
theorem C6_stale_handle_validation_witness :
    Index.peek_key_value ⟨0, 0, 99⟩ sB = none ∧
    Index.get_key_value ⟨0, 0, 99⟩ sB = none ∧
    Index.remove_from ⟨0, 0, 99⟩ sB = none ∧
    Index.peek_key_value ⟨0, 0, 2⟩ sB = Entry.peek_key_value sB 0 0 := by
  have h1 := (C6_stale_handle_validation sB ⟨0, 0, 99⟩).1 (by decide)
  have h2 := (C6_stale_handle_validation sB ⟨0, 0, 2⟩).2 (by decide)
  exact ⟨h1.2.1, h1.2.2.2.2.2.2.1, h1.2.2.2.2.2.2.2, h2.1⟩

/-- C8: the read-only operations (find_first — including with a
predicate matching nothing, where it returns none —, the peek variants
on transient and detached handles) leave the cache state, and hence
generation(), size() and the stored items, unchanged. -/
theorem C8_read_only_frame [DecidableEq K] (c : CommonCache K V) (p : K → V → Bool)
    (lvl idx : Nat) (ix : Index)
    (hnm : ∀ x ∈ allItems c, p x.1 x.2 = false) :
    (c.find_first p).1 = none ∧
    (c.find_first p).2 = c ∧
    (c.find_first p).2.generation = c.generation ∧
    (c.find_first p).2.size = c.size ∧
    allItems (c.find_first p).2 = allItems c ∧
    (Entry.peek_key_value_mut c lvl idx).2 = c ∧
    (∀ r, Index.peek_key_value_mut ix c = some r → r.2 = c) := by
  refine ⟨?_, rfl, rfl, rfl, rfl, rfl, ?_⟩
  · unfold CommonCache.find_first
    exact findFirstAux_none c.levels 0 hnm
  · intro r hr
    unfold Index.peek_key_value_mut at hr
    by_cases hgok : ix.generationOk c
    · rw [if_pos hgok] at hr
      cases hpk : Entry.peek_key_value c ix.level ix.idx with
      | none => rw [hpk] at hr; exact Option.noConfusion hr
      | some kv =>
        rw [hpk] at hr
        simp only [Option.map_some', Option.some.injEq] at hr
        rw [← hr]
    · rw [if_neg hgok] at hr
      exact Option.noConfusion hr

/-- Witness for C8 on the reachable state `sB` with a predicate that
matches nothing. -/
theorem C8_read_only_frame_witness :
    (sB.find_first fun _ _ => false).1 = none ∧
    (sB.find_first fun _ _ => false).2 = sB := by
  have h := C8_read_only_frame sB (fun _ _ => false) 0 0 ⟨0, 0, 2⟩
    (fun x _ => rfl)
  exact ⟨h.1, h.2.1⟩

end CommonCacheModel
